import Mathlib

/-!
Verification of the `btree` repository (a B-tree backed ordered-key set).

The embedding translates `src/lib.rs`, `src/btree/dummy.rs` and
`src/btree/reference.rs` into Lean.  The key type `K` is instantiated at
`Int` (the repository's tests use `i32`/`usize`; the code is parametric and
all claims are about the algorithm, not a particular key type).  The const
generic `B` is an explicit `Nat` parameter.  Fallible steps of the Rust code
(indexing that can panic, `unwrap`, `todo!()`) are modelled with `Option`:
`none` is a panic.
-/

set_option linter.unusedVariables false

namespace BtreeModel

/-- Error enum from `src/lib.rs`. -/
inductive Error where
  | keyNotFound
  | keyAlreadyExists
deriving DecidableEq

/-- Model of `VecDeque::binary_search` through its documented contract: on a
sorted, duplicate-free sequence it returns `Ok i` when element `i` equals the
probe and otherwise `Err i` where `i` is the insertion index keeping the
sequence sorted.  (The linear recursion below realises exactly that contract;
the repository only ever calls `binary_search` on sorted key sequences.) -/
def bsearch (key : Int) : List Int → Except Nat Nat
  | [] => .error 0
  | k :: ks =>
    if key < k then .error 0
    else if key = k then .ok 0
    else
      match bsearch key ks with
      | .ok i => .ok (i + 1)
      | .error i => .error (i + 1)

/-- Model of `VecDeque::insert(idx, a)`.  The repository only calls it with
`idx ≤ len` (the index always comes from `binary_search`), where the two
semantics agree. -/
def insertAt {α : Type} : Nat → α → List α → List α
  | 0, a, l => a :: l
  | _ + 1, a, [] => [a]
  | n + 1, a, x :: l => x :: insertAt n a l

/-- Write through an index (`self.children[idx] = …`, i.e. the in-place
mutation of a child slot borrowed with `&mut`). -/
def setAt {α : Type} : Nat → α → List α → List α
  | _, _, [] => []
  | 0, a, _ :: l => a :: l
  | n + 1, a, x :: l => x :: setAt n a l

/-- Insertion into a sorted duplicate-free list; leaves the list unchanged if
the key is already present.  Specification-side device used to describe the
effect of the tree operations. -/
def insertSorted (key : Int) : List Int → List Int
  | [] => [key]
  | k :: ks =>
    if key < k then key :: k :: ks
    else if key = k then k :: ks
    else k :: insertSorted key ks

/-- Openness-respecting membership in an interval with optional bounds. -/
def memOk (lo hi : Option Int) (k : Int) : Bool :=
  (match lo with
   | none => true
   | some a => decide (a < k)) &&
  (match hi with
   | none => true
   | some b => decide (k < b))

/-- Strictly ascending and contained in the open interval `(lo, hi)`. -/
def sortedIn (lo hi : Option Int) : List Int → Bool
  | [] => true
  | k :: ks => memOk lo hi k && sortedIn (some k) hi ks

/-- Strictly increasing list of keys (claim language for sortedness). -/
def strictAsc : List Int → Bool
  | [] => true
  | [_] => true
  | a :: b :: t => decide (a < b) && strictAsc (b :: t)

/-- The node shape of `dummy.rs`: a leaf flag, an ordered key sequence and a
child sequence (`Link<K, B> = Box<Node<K, B>>` is just a child by value in
the model, ownership being strict). -/
inductive Node : Type where
  | mk (is_leaf : Bool) (keys : List Int) (children : List Node)

def Node.keys : Node → List Int
  | .mk _ ks _ => ks

def Node.children : Node → List Node
  | .mk _ _ cs => cs

def Node.isLeafFlag : Node → Bool
  | .mk f _ _ => f

/-- MIN_KEYS from `dummy.rs`. -/
def Node.MIN_KEYS (B : Nat) : Nat := B - 1

/-- MAX_KEYS from `dummy.rs`. -/
def Node.MAX_KEYS (B : Nat) : Nat := 2 * B - 1

/-- MIN_CHILDREN from `dummy.rs` (note: the source defines this as `2 * B`,
swapped with respect to the usual B-tree bounds). -/
def Node.MIN_CHILDREN (B : Nat) : Nat := 2 * B

/-- MAX_CHILDREN from `dummy.rs` (note: the source defines this as `B`). -/
def Node.MAX_CHILDREN (B : Nat) : Nat := B

/-- The `Node::intermediate` constructor: it retains at most `MAX_KEYS` keys
and at most `MAX_CHILDREN` children (`take` mirrors the `Iterator::take`
calls in the source). -/
def Node.intermediate (B : Nat) (keys : List Int) (children : List Node) : Node :=
  .mk false (keys.take (Node.MAX_KEYS B)) (children.take (Node.MAX_CHILDREN B))

/-- The `Node::leaf` constructor: retains at most `MAX_KEYS` keys. -/
def Node.leaf (B : Nat) (keys : List Int) : Node :=
  .mk true (keys.take (Node.MAX_KEYS B)) []

theorem mem_of_getElemQ {α : Type} : ∀ (l : List α) (i : Nat) (a : α), l[i]? = some a → a ∈ l := by
  intro l
  induction l with
  | nil => intro i a h; simp at h
  | cons x xs ih =>
    intro i a h
    cases i with
    | zero => simp at h; simp [h]
    | succ n => simp at h; exact List.mem_cons_of_mem _ (ih n a h)

/-- SearchResult from `dummy.rs` (the reference `&'a Node` becomes a node
value, ownership being strict). -/
inductive SearchResult where
  | notFound
  | key (k : Int)
  | child (c : Node)

/-- InsertResult from `dummy.rs`. -/
inductive InsertResult where
  | alreadyExists
  | inserted
  | split (hoist : Int) (sibling : Node)

/-- The `Node::find` step: one ordered lookup, returning the matched key, the
child to descend into, or NotFound at a leaf.  `none` models a panicking
out-of-bounds `self.children[idx]` / `self.keys[idx]` access. -/
def Node.find : Node → Int → Option SearchResult
  | .mk is_leaf keys children, key =>
    match bsearch key keys with
    | .ok idx =>
      match keys[idx]? with
      | none => none
      | some k => some (.key k)
    | .error idx =>
      if is_leaf then some .notFound
      else
        match children[idx]? with
        | none => none
        | some c => some (.child c)

theorem Node.find_child_size :
    ∀ (n : Node) (key : Int) (c : Node), Node.find n key = some (.child c) → sizeOf c < sizeOf n := by
  intro n key c h
  cases n with
  | mk f ks cs =>
    simp only [Node.find] at h
    split at h
    · split at h <;> simp_all
    · split at h
      · simp_all
      · split at h
        · simp_all
        · rename_i c2 hc
          have h2 : c2 = c := by simpa using h
          subst h2
          have := List.sizeOf_lt_of_mem (mem_of_getElemQ _ _ _ hc)
          simp only [Node.mk.sizeOf_spec]
          omega

/-- The loop body of `Root::search` from `dummy.rs`: iterate `Node::find`
from the given node, descending on `Child`. -/
def Root.search (n : Node) (key : Int) : Option (Except Error Int) :=
  match h : Node.find n key with
  | none => none
  | some .notFound => some (.error .keyNotFound)
  | some (.key k) => some (.ok k)
  | some (.child c) => Root.search c key
termination_by sizeOf n
decreasing_by exact Node.find_child_size _ _ _ h

/-- Plain rewriting form of `Root.search`. -/
theorem Root.search_eq (n : Node) (key : Int) :
    Root.search n key =
      match Node.find n key with
      | none => none
      | some .notFound => some (.error .keyNotFound)
      | some (.key k) => some (.ok k)
      | some (.child c) => Root.search c key := by
  rw [Root.search]
  split <;> rename_i h <;> rw [h]

/-- The `Node::split` procedure: `split_off(B)` on the keys (and children for
an intermediate node), `pop_back().unwrap()` for the hoisted key, and the
sibling built through the truncating constructors.  Returns
`(updated self, hoist, sibling)`; `none` models the `unwrap` panic. -/
def Node.split (B : Nat) : Node → Option (Node × Int × Node)
  | .mk is_leaf keys children =>
    if is_leaf then
      match (keys.take B).getLast? with
      | none => none
      | some hoist =>
        some (.mk true (keys.take B).dropLast children, hoist, Node.leaf B (keys.drop B))
    else
      match (keys.take B).getLast? with
      | none => none
      | some hoist =>
        some (.mk false (keys.take B).dropLast (children.take B), hoist,
          Node.intermediate B (keys.drop B) (children.drop B))

/-- The `Node::insert` procedure from `dummy.rs`: binary-search the key; at a
leaf insert at the returned index and split when the key count exceeds
`MAX_KEYS`; at an intermediate node descend into `children[idx]`, and on a
child `Split` absorb the hoisted key at `idx` and the sibling at `idx + 1`,
then split itself when the child count exceeds `2 * B - 1`.
Returns the `InsertResult` together with the updated node (in Rust the node
is mutated through `&mut self`); `none` models a panic. -/
def Node.insert (B : Nat) : Node → Int → Option (InsertResult × Node)
  | .mk is_leaf keys children, key =>
    match bsearch key keys with
    | .ok _ => some (.alreadyExists, .mk is_leaf keys children)
    | .error idx =>
      if is_leaf then
        let ks2 := insertAt idx key keys
        if Node.MAX_KEYS B < ks2.length then
          match Node.split B (.mk true ks2 children) with
          | none => none
          | some (ns, hoist, sib) => some (.split hoist sib, ns)
        else
          some (.inserted, .mk true ks2 children)
      else
        match h : children[idx]? with
        | none => none
        | some child =>
          match Node.insert B child key with
          | none => none
          | some (.split hoist sib, child2) =>
            let ks2 := insertAt idx hoist keys
            let cs2 := insertAt (idx + 1) sib (setAt idx child2 children)
            if 2 * B - 1 < cs2.length then
              match Node.split B (.mk false ks2 cs2) with
              | none => none
              | some (ns, h2, sib2) => some (.split h2 sib2, ns)
            else
              some (.inserted, .mk false ks2 cs2)
          | some (.alreadyExists, child2) =>
            some (.alreadyExists, .mk false keys (setAt idx child2 children))
          | some (.inserted, child2) =>
            some (.inserted, .mk false keys (setAt idx child2 children))
termination_by n _ => sizeOf n
decreasing_by
  have hm := mem_of_getElemQ _ _ _ h
  have := List.sizeOf_lt_of_mem hm
  simp only [Node.mk.sizeOf_spec]
  omega

/-- Plain rewriting form of `Node.insert`. -/
theorem Node.insert_eq (B : Nat) (is_leaf : Bool) (keys : List Int) (children : List Node)
    (key : Int) :
    Node.insert B (.mk is_leaf keys children) key =
      match bsearch key keys with
      | .ok _ => some (.alreadyExists, .mk is_leaf keys children)
      | .error idx =>
        if is_leaf then
          let ks2 := insertAt idx key keys
          if Node.MAX_KEYS B < ks2.length then
            match Node.split B (.mk true ks2 children) with
            | none => none
            | some (ns, hoist, sib) => some (.split hoist sib, ns)
          else
            some (.inserted, .mk true ks2 children)
        else
          match children[idx]? with
          | none => none
          | some child =>
            match Node.insert B child key with
            | none => none
            | some (.split hoist sib, child2) =>
              let ks2 := insertAt idx hoist keys
              let cs2 := insertAt (idx + 1) sib (setAt idx child2 children)
              if 2 * B - 1 < cs2.length then
                match Node.split B (.mk false ks2 cs2) with
                | none => none
                | some (ns, h2, sib2) => some (.split h2 sib2, ns)
              else
                some (.inserted, .mk false ks2 cs2)
            | some (.alreadyExists, child2) =>
              some (.alreadyExists, .mk false keys (setAt idx child2 children))
            | some (.inserted, child2) =>
              some (.inserted, .mk false keys (setAt idx child2 children)) := by
  rw [Node.insert]
  rcases hb : bsearch key keys with i | i <;> simp only []
  by_cases hf : is_leaf = true
  · simp only [hf, if_true]
  · simp only [hf, Bool.false_eq_true, if_false]
    split <;> rename_i h <;> rw [h]

/-- The `Root::insert` wrapper from `dummy.rs`: delegate to `Node::insert`
and, on `Split`, promote a brand-new root built from the hoisted key, the old
root node and the new sibling. -/
def Root.insert (B : Nat) (n : Node) (key : Int) : Option (Except Error Unit × Node) :=
  match Node.insert B n key with
  | none => none
  | some (.alreadyExists, n2) => some (.error .keyAlreadyExists, n2)
  | some (.inserted, n2) => some (.ok (), n2)
  | some (.split hoist sib, n2) => some (.ok (), Node.intermediate B [hoist] [n2, sib])

/-- The `Root::remove` method from `dummy.rs` is `todo!()`: it
unconditionally panics, which the model renders as `none`. -/
def Root.remove (B : Nat) (n : Node) (key : Int) : Option (Except Error Int × Node) :=
  none

/-- DummyBTreeSet from `dummy.rs`: an optional root. -/
structure DummyBTreeSet where
  root : Option Node

/-- DummyBTreeSet::new. -/
def DummyBTreeSet.new : DummyBTreeSet := ⟨none⟩

/-- DummyBTreeSet::search. -/
def DummyBTreeSet.search (t : DummyBTreeSet) (key : Int) : Option (Except Error Int) :=
  match t.root with
  | none => some (.error .keyNotFound)
  | some n => Root.search n key

/-- DummyBTreeSet::insert: on an empty tree install a fresh leaf root holding
just the key, otherwise delegate to `Root::insert`. -/
def DummyBTreeSet.insert (B : Nat) (t : DummyBTreeSet) (key : Int) :
    Option (Except Error Unit × DummyBTreeSet) :=
  match t.root with
  | none => some (.ok (), ⟨some (Node.leaf B [key])⟩)
  | some n =>
    match Root.insert B n key with
    | none => none
    | some (r, n2) => some (r, ⟨some n2⟩)

/-- DummyBTreeSet::remove: `Err(KeyNotFound)` on the empty tree, otherwise
delegate to the panicking `Root::remove`. -/
def DummyBTreeSet.remove (B : Nat) (t : DummyBTreeSet) (key : Int) :
    Option (Except Error Int × DummyBTreeSet) :=
  match t.root with
  | none => some (.error .keyNotFound, t)
  | some n =>
    match Root.remove B n key with
    | none => none
    | some (r, n2) => some (r, ⟨some n2⟩)

/-- The `BTreeSet::contains` default method from `src/lib.rs`:
`search(key).is_ok()`. -/
def DummyBTreeSet.contains (t : DummyBTreeSet) (key : Int) : Option Bool :=
  (DummyBTreeSet.search t key).map (fun r =>
    match r with
    | .ok _ => true
    | .error _ => false)

/-- States of `DummyBTreeSet` reachable from `new()` through public
operations that complete normally (no panic).  `search`/`contains` take
`&self` and cannot change the state, so only `insert` and `remove` appear as
steps. -/
inductive Reachable (B : Nat) : DummyBTreeSet → Prop where
  | new : Reachable B ⟨none⟩
  | ins {t t' : DummyBTreeSet} {r : Except Error Unit} {k : Int} :
      Reachable B t → DummyBTreeSet.insert B t k = some (r, t') → Reachable B t'
  | rem {t t' : DummyBTreeSet} {r : Except Error Int} {k : Int} :
      Reachable B t → DummyBTreeSet.remove B t k = some (r, t') → Reachable B t'

/-- ReferenceBTreeSet from `reference.rs` wraps `std::collections::BTreeSet`.
The standard container is external to the repository; it is modelled by its
documented contract as a sorted duplicate-free list of keys. -/
structure ReferenceBTreeSet where
  keys : List Int

/-- ReferenceBTreeSet::new. -/
def ReferenceBTreeSet.new : ReferenceBTreeSet := ⟨[]⟩

/-- ReferenceBTreeSet::search (`BTreeSet::get`). -/
def ReferenceBTreeSet.search (s : ReferenceBTreeSet) (key : Int) : Except Error Int :=
  if key ∈ s.keys then .ok key else .error .keyNotFound

/-- ReferenceBTreeSet::insert (`BTreeSet::insert`, which reports whether the
key was newly inserted). -/
def ReferenceBTreeSet.insert (s : ReferenceBTreeSet) (key : Int) :
    Except Error Unit × ReferenceBTreeSet :=
  if key ∈ s.keys then (.error .keyAlreadyExists, s)
  else (.ok (), ⟨insertSorted key s.keys⟩)

/-- ReferenceBTreeSet::remove (`BTreeSet::take`). -/
def ReferenceBTreeSet.remove (s : ReferenceBTreeSet) (key : Int) :
    Except Error Int × ReferenceBTreeSet :=
  if key ∈ s.keys then (.ok key, ⟨s.keys.erase key⟩)
  else (.error .keyNotFound, s)

mutual
/-- In-order traversal of a node: `children[0], keys[0], children[1], …`. -/
def Node.toList : Node → List Int
  | .mk _ keys children => seqList children keys
/-- In-order traversal of an alternating child/key sequence. -/
def seqList : List Node → List Int → List Int
  | [], ks => ks
  | c :: cs, [] => Node.toList c ++ seqList cs []
  | c :: cs, k :: ks => Node.toList c ++ k :: seqList cs ks
end

mutual
/-- Height of a node (a childless node has height 1). -/
def Node.height : Node → Nat
  | .mk _ _ children => maxH children + 1
/-- Maximum height over a child list. -/
def maxH : List Node → Nat
  | [] => 0
  | c :: cs => max (Node.height c) (maxH cs)
end

mutual
/-- Perfect balance: all children recursively balanced and of equal height. -/
def Node.balanced : Node → Bool
  | .mk _ _ [] => true
  | .mk _ _ (c :: cs) => Node.balanced c && balancedAll (Node.height c) cs
/-- All nodes balanced and of the given height. -/
def balancedAll (h : Nat) : List Node → Bool
  | [] => true
  | c :: cs => Node.balanced c && decide (Node.height c = h) && balancedAll h cs
end

mutual
/-- Size invariant actually maintained by the code: at least `lb` keys, and at
most `2 * B - 1` keys for a leaf but at most `2 * B - 2` keys for an
intermediate node (the code splits an intermediate node as soon as its child
count exceeds `2 * B - 1`, i.e. already at `2 * B - 1` keys, so intermediate
nodes at rest stay one key below `MAX_KEYS`).  Non-root nodes use
`lb = B - 1`. -/
def Node.inv (B lb : Nat) : Node → Bool
  | .mk is_leaf keys children =>
    decide (lb ≤ keys.length) &&
    (if is_leaf then decide (keys.length ≤ 2 * B - 1)
     else decide (keys.length ≤ 2 * B - 2)) &&
    Node.invAll B children
/-- All children satisfy the non-root size invariant. -/
def Node.invAll (B : Nat) : List Node → Bool
  | [] => true
  | c :: cs => Node.inv B (B - 1) c && Node.invAll B cs
end

mutual
/-- Search-tree shape in the open interval `(lo, hi)`: a leaf is a sorted key
run with no children; an intermediate node is a well-bracketed alternation of
children and separator keys (which also forces
`children.length = keys.length + 1`). -/
def Node.bst (lo hi : Option Int) : Node → Bool
  | .mk is_leaf keys children =>
    if is_leaf then sortedIn lo hi keys && children.isEmpty
    else bstSeq lo hi keys children
/-- Well-bracketed child/key alternation in `(lo, hi)`. -/
def bstSeq (lo hi : Option Int) : List Int → List Node → Bool
  | [], [c] => Node.bst lo hi c
  | k :: ks, c :: cs => memOk lo hi k && Node.bst lo (some k) c && bstSeq (some k) hi ks cs
  | _, _ => false
end

mutual
/-- Capacity in the language of the specification: key count in
`[B-1, 2B-1]` for non-root nodes (`[0, 2B-1]` for the root), child count
equal to key count plus one for intermediate nodes, no children for
leaves. -/
def Node.capacityOk (B : Nat) (isRoot : Bool) : Node → Bool
  | .mk is_leaf keys children =>
    decide ((if isRoot then 0 else B - 1) ≤ keys.length) &&
    decide (keys.length ≤ 2 * B - 1) &&
    (if is_leaf then children.isEmpty else decide (children.length = keys.length + 1)) &&
    Node.capacityAll B children
/-- All children satisfy the non-root capacity bounds. -/
def Node.capacityAll (B : Nat) : List Node → Bool
  | [] => true
  | c :: cs => Node.capacityOk B false c && Node.capacityAll B cs
end

mutual
/-- Depths (from this node) of all childless descendants; the node itself has
depth 0. -/
def Node.leafDepths : Node → List Nat
  | .mk _ _ [] => [0]
  | .mk _ _ (c :: cs) => depthsA (c :: cs)
/-- Depths collected over a child list (shifted one level down). -/
def depthsA : List Node → List Nat
  | [] => []
  | c :: cs => (Node.leafDepths c).map (fun d => d + 1) ++ depthsA cs
end

/-- In-order key sequence of the whole tree. -/
def DummyBTreeSet.toList (t : DummyBTreeSet) : List Int :=
  match t.root with
  | none => []
  | some n => n.toList

/-- Height of the whole tree (0 when empty). -/
def DummyBTreeSet.heightD (t : DummyBTreeSet) : Nat :=
  match t.root with
  | none => 0
  | some n => n.height

/-- Well-formedness of a tree state: the root (when present) holds at least
one key, respects the size invariant, is a search tree and is balanced. -/
def DummyBTreeSet.WF (B : Nat) (t : DummyBTreeSet) : Bool :=
  match t.root with
  | none => true
  | some n => Node.inv B 1 n && Node.bst none none n && Node.balanced n

/-! List-level facts about the helper functions. -/

theorem bsearch_ok_getElem :
    ∀ (ks : List Int) (key : Int) (i : Nat), bsearch key ks = .ok i → ks[i]? = some key := by
  intro ks
  induction ks with
  | nil => intro key i h; simp [bsearch] at h
  | cons k ks ih =>
    intro key i h
    simp only [bsearch] at h
    by_cases h1 : key < k
    · simp [h1] at h
    · by_cases h2 : key = k
      · simp [h1, h2] at h
        subst h2
        simp [← h]
      · simp only [h1, h2, if_false] at h
        rcases hb : bsearch key ks with j | j <;> rw [hb] at h <;> simp at h
        subst h
        simpa using ih key j hb

theorem bsearch_ok_mem (ks : List Int) (key : Int) (i : Nat) (h : bsearch key ks = .ok i) :
    key ∈ ks :=
  mem_of_getElemQ _ _ _ (bsearch_ok_getElem ks key i h)

theorem bsearch_err_le :
    ∀ (ks : List Int) (key : Int) (i : Nat), bsearch key ks = .error i → i ≤ ks.length := by
  intro ks
  induction ks with
  | nil => intro key i h; simp [bsearch] at h; omega
  | cons k ks ih =>
    intro key i h
    simp only [bsearch] at h
    by_cases h1 : key < k
    · simp [h1] at h; simp [← h]
    · by_cases h2 : key = k
      · simp [h1, h2] at h
      · simp only [h1, h2, if_false] at h
        rcases hb : bsearch key ks with j | j <;> rw [hb] at h <;> simp at h
        have := ih key j hb
        simp
        omega

theorem insertAt_bsearch :
    ∀ (ks : List Int) (key : Int) (i : Nat), bsearch key ks = .error i →
      insertAt i key ks = insertSorted key ks := by
  intro ks
  induction ks with
  | nil => intro key i h; simp [bsearch] at h; simp [← h, insertAt, insertSorted]
  | cons k ks ih =>
    intro key i h
    simp only [bsearch] at h
    by_cases h1 : key < k
    · simp [h1] at h; simp [← h, insertAt, insertSorted, h1]
    · by_cases h2 : key = k
      · simp [h1, h2] at h
      · simp only [h1, h2, if_false] at h
        rcases hb : bsearch key ks with j | j <;> rw [hb] at h <;> simp at h
        subst h
        simp [insertAt, insertSorted, h1, h2, ih key j hb]

theorem insertAt_length {α : Type} :
    ∀ (l : List α) (i : Nat) (a : α), i ≤ l.length → (insertAt i a l).length = l.length + 1 := by
  intro l
  induction l with
  | nil =>
    intro i a h
    have hi : i = 0 := by simpa using h
    subst hi
    simp [insertAt]
  | cons x xs ih =>
    intro i a h
    cases i with
    | zero => simp [insertAt]
    | succ n =>
      simp only [insertAt, List.length_cons]
      rw [ih n a (by simpa using h)]

theorem setAt_length {α : Type} :
    ∀ (l : List α) (i : Nat) (a : α), (setAt i a l).length = l.length := by
  intro l
  induction l with
  | nil => intro i a; simp [setAt]
  | cons x xs ih =>
    intro i a
    cases i with
    | zero => simp [setAt]
    | succ n => simp only [setAt, List.length_cons]; rw [ih n a]

theorem setAt_self {α : Type} :
    ∀ (l : List α) (i : Nat) (a : α), l[i]? = some a → setAt i a l = l := by
  intro l
  induction l with
  | nil => intro i a h; simp at h
  | cons x xs ih =>
    intro i a h
    cases i with
    | zero => simp at h; simp [setAt, h]
    | succ n =>
      simp only [List.getElem?_cons_succ] at h
      simp [setAt, ih n a h]

theorem memOk_hi_trans {lo lo2 hi : Option Int} {b k : Int} (h1 : memOk lo (some b) k = true)
    (h2 : memOk lo2 hi b = true) : memOk lo hi k = true := by
  rcases lo with _ | a <;> rcases hi with _ | c <;>
    simp_all [memOk] <;> rcases lo2 with _ | d <;> simp_all [memOk] <;> omega

theorem memOk_lo_trans {lo hi hi2 : Option Int} {a k : Int} (h1 : memOk (some a) hi k = true)
    (h2 : memOk lo hi2 a = true) : memOk lo hi k = true := by
  rcases lo with _ | d <;> rcases hi with _ | c <;>
    simp_all [memOk] <;> rcases hi2 with _ | e <;> simp_all [memOk] <;> omega

theorem memOk_of_lt_hi {lo : Option Int} {hi : Option Int} {k b : Int}
    (h1 : memOk lo hi k = true) (hkb : k < b) : memOk lo (some b) k = true := by
  rcases lo with _ | a <;> simp_all [memOk]

theorem memOk_of_gt_lo {lo hi : Option Int} {k a : Int}
    (h1 : memOk lo hi k = true) (hak : a < k) : memOk (some a) hi k = true := by
  rcases hi with _ | b <;> simp_all [memOk]

theorem memOk_some_hi {lo : Option Int} {b k : Int} (h : memOk lo (some b) k = true) : k < b := by
  rcases lo with _ | a <;> simp_all [memOk]

theorem memOk_some_lo {hi : Option Int} {a k : Int} (h : memOk (some a) hi k = true) : a < k := by
  rcases hi with _ | b <;> simp_all [memOk]

theorem sortedIn_bounds :
    ∀ (l : List Int) (lo hi : Option Int), sortedIn lo hi l = true →
      ∀ x ∈ l, memOk lo hi x = true := by
  intro l
  induction l with
  | nil => intro lo hi h x hx; simp at hx
  | cons k ks ih =>
    intro lo hi h x hx
    simp only [sortedIn, Bool.and_eq_true] at h
    rcases List.mem_cons.mp hx with rfl | hx2
    · exact h.1
    · exact memOk_lo_trans (ih (some k) hi h.2 x hx2) h.1

theorem sortedIn_append :
    ∀ (l1 : List Int) (lo hi : Option Int) (m : Int) (l2 : List Int),
      sortedIn lo (some m) l1 = true → memOk lo hi m = true → sortedIn (some m) hi l2 = true →
      sortedIn lo hi (l1 ++ m :: l2) = true := by
  intro l1
  induction l1 with
  | nil => intro lo hi m l2 h1 h2 h3; simp [sortedIn, h2, h3]
  | cons k ks ih =>
    intro lo hi m l2 h1 h2 h3
    simp only [sortedIn, Bool.and_eq_true] at h1
    simp only [List.cons_append, sortedIn, Bool.and_eq_true]
    refine ⟨memOk_hi_trans h1.1 h2, ?_⟩
    have hkm : k < m := memOk_some_hi h1.1
    exact ih (some k) hi m l2 h1.2 (memOk_of_gt_lo h2 hkm) h3

theorem sortedIn_decomp :
    ∀ (l1 : List Int) (lo hi : Option Int) (m : Int) (l2 : List Int),
      sortedIn lo hi (l1 ++ m :: l2) = true →
      sortedIn lo (some m) l1 = true ∧ memOk lo hi m = true ∧ sortedIn (some m) hi l2 = true := by
  intro l1
  induction l1 with
  | nil => intro lo hi m l2 h; simpa [sortedIn] using h
  | cons k ks ih =>
    intro lo hi m l2 h
    simp only [List.cons_append, sortedIn, Bool.and_eq_true] at h
    obtain ⟨h1, h2, h3⟩ := ih (some k) hi m l2 h.2
    have hkm : k < m := memOk_some_lo h2
    refine ⟨?_, memOk_lo_trans h2 h.1, h3⟩
    simp only [sortedIn, Bool.and_eq_true]
    exact ⟨memOk_of_lt_hi h.1 hkm, h1⟩

theorem sortedIn_strictAsc :
    ∀ (l : List Int) (lo hi : Option Int), sortedIn lo hi l = true → strictAsc l = true := by
  intro l
  induction l with
  | nil => intro lo hi h; simp [strictAsc]
  | cons k ks ih =>
    intro lo hi h
    simp only [sortedIn, Bool.and_eq_true] at h
    cases ks with
    | nil => simp [strictAsc]
    | cons k2 ks2 =>
      simp only [strictAsc, Bool.and_eq_true, decide_eq_true_eq]
      have h2 := h.2
      simp only [sortedIn, Bool.and_eq_true] at h2
      exact ⟨memOk_some_lo h2.1, ih (some k) hi h.2⟩

theorem insertSorted_sortedIn :
    ∀ (l : List Int) (lo hi : Option Int) (key : Int), sortedIn lo hi l = true →
      memOk lo hi key = true → sortedIn lo hi (insertSorted key l) = true := by
  intro l
  induction l with
  | nil => intro lo hi key h hk; simp [insertSorted, sortedIn, hk]
  | cons k ks ih =>
    intro lo hi key h hk
    simp only [sortedIn, Bool.and_eq_true] at h
    by_cases h1 : key < k
    · simp only [insertSorted, h1, if_true, sortedIn, Bool.and_eq_true]
      exact ⟨hk, memOk_of_gt_lo h.1 h1, h.2⟩
    · by_cases h2 : key = k
      · subst h2
        have hsame : insertSorted key (key :: ks) = key :: ks := by
          simp [insertSorted]
        rw [hsame]
        simp only [sortedIn, Bool.and_eq_true]
        exact ⟨h.1, h.2⟩
      · simp only [insertSorted, h1, h2, if_false, sortedIn, Bool.and_eq_true]
        have hkk : k < key := by omega
        exact ⟨h.1, ih (some k) hi key h.2 (memOk_of_gt_lo hk hkk)⟩

theorem insertSorted_append_lt (key k : Int) (hlt : key < k) :
    ∀ (l1 l2 : List Int), insertSorted key (l1 ++ k :: l2) = insertSorted key l1 ++ k :: l2 := by
  intro l1
  induction l1 with
  | nil => intro l2; simp [insertSorted, hlt]
  | cons a l1 ih =>
    intro l2
    by_cases h1 : key < a
    · simp [insertSorted, h1]
    · by_cases h2 : key = a
      · simp [insertSorted, h1, h2]
      · simp [insertSorted, h1, h2, ih l2]

theorem insertSorted_append_ge (key : Int) :
    ∀ (l1 l2 : List Int), (∀ x ∈ l1, x < key) →
      insertSorted key (l1 ++ l2) = l1 ++ insertSorted key l2 := by
  intro l1
  induction l1 with
  | nil => intro l2 h; simp
  | cons a l1 ih =>
    intro l2 h
    have ha : a < key := h a (by simp)
    have h1 : ¬ key < a := by omega
    have h2 : ¬ key = a := by omega
    simp only [List.cons_append, insertSorted, h1, h2, if_false]
    exact congrArg (List.cons a) (ih l2 (fun x hx => h x (by simp [hx])))

theorem insertSorted_length_of_not_mem :
    ∀ (l : List Int) (key : Int), key ∉ l → (insertSorted key l).length = l.length + 1 := by
  intro l
  induction l with
  | nil => intro key h; simp [insertSorted]
  | cons k ks ih =>
    intro key h
    simp only [List.mem_cons, not_or] at h
    by_cases h1 : key < k
    · simp [insertSorted, h1]
    · simp only [insertSorted, h1, h.1, if_false, List.length_cons]
      rw [ih key h.2]

theorem getElem?_take_decomp {α : Type} :
    ∀ (l : List α) (n : Nat), n < l.length →
      ∃ x, l[n]? = some x ∧ (l.take (n + 1)).getLast? = some x ∧
        (l.take (n + 1)).dropLast = l.take n ∧ l = l.take n ++ x :: l.drop (n + 1) := by
  intro l
  induction l with
  | nil => intro n h; simp at h
  | cons a l ih =>
    intro n h
    cases n with
    | zero => exact ⟨a, by simp⟩
    | succ m =>
      obtain ⟨x, hx1, hx2, hx3, hx4⟩ := ih m (by simpa using h)
      have hne : List.take (m + 1) l ≠ [] := by
        intro hc
        have hlen := congrArg List.length hc
        simp only [List.length_take, List.length_nil] at hlen
        have : m + 1 < (a :: l).length := h
        simp only [List.length_cons] at this
        omega
      refine ⟨x, by simpa using hx1, ?_, ?_, ?_⟩
      · rcases hq : List.take (m + 1) l with _ | ⟨y, ys⟩
        · exact absurd hq hne
        · rw [List.take_succ_cons, hq, List.getLast?_cons_cons]
          rw [hq] at hx2
          exact hx2
      · rw [List.take_succ_cons, List.dropLast_cons_of_ne_nil hne, hx3, List.take_succ_cons]
      · simpa using hx4

theorem bsearch_err_not_mem :
    ∀ (ks : List Int) (lo hi : Option Int) (key : Int) (i : Nat), sortedIn lo hi ks = true →
      bsearch key ks = .error i → key ∉ ks := by
  intro ks
  induction ks with
  | nil => intro lo hi key i hs h; simp
  | cons k ks ih =>
    intro lo hi key i hs h
    simp only [sortedIn, Bool.and_eq_true] at hs
    simp only [bsearch] at h
    by_cases h1 : key < k
    · intro hm
      rcases List.mem_cons.mp hm with rfl | hm2
      · omega
      · have := memOk_some_lo (sortedIn_bounds _ _ _ hs.2 key hm2)
        omega
    · by_cases h2 : key = k
      · simp [h1, h2] at h
      · simp only [h1, h2, if_false] at h
        rcases hb : bsearch key ks with j | j <;> rw [hb] at h <;> simp at h
        intro hm
        rcases List.mem_cons.mp hm with rfl | hm2
        · exact h2 rfl
        · exact ih (some k) hi key j hs.2 hb hm2

/-! Node-level structural facts. -/

theorem Node.sizeOf_child_lt {c : Node} {f : Bool} {ks : List Int} {cs : List Node}
    (h : c ∈ cs) : sizeOf c < sizeOf (Node.mk f ks cs) := by
  have := List.sizeOf_lt_of_mem h
  simp only [Node.mk.sizeOf_spec]
  omega

theorem Node.strongInd (P : Node → Prop)
    (step : ∀ n, (∀ m, sizeOf m < sizeOf n → P m) → P n) : ∀ n, P n := by
  have H : ∀ N n, sizeOf n < N → P n := by
    intro N
    induction N with
    | zero => intro n h; omega
    | succ N ih =>
      intro n h
      exact step n (fun m hm => ih m (by omega))
  exact fun n => H (sizeOf n + 1) n (Nat.lt_succ_self _)

theorem bstSeq_length :
    ∀ (ks : List Int) (cs : List Node) (lo hi : Option Int), bstSeq lo hi ks cs = true →
      cs.length = ks.length + 1 := by
  intro ks
  induction ks with
  | nil =>
    intro cs lo hi h
    rcases cs with _ | ⟨c, cs⟩
    · simp [bstSeq] at h
    · rcases cs with _ | ⟨c2, cs2⟩
      · simp
      · simp [bstSeq] at h
  | cons k ks ih =>
    intro cs lo hi h
    rcases cs with _ | ⟨c, cs⟩
    · simp [bstSeq] at h
    · simp only [bstSeq, Bool.and_eq_true] at h
      simp [ih cs (some k) hi h.2]

theorem invAll_iff (B : Nat) :
    ∀ (cs : List Node), Node.invAll B cs = true ↔ ∀ c ∈ cs, Node.inv B (B - 1) c = true := by
  intro cs
  induction cs with
  | nil => simp [Node.invAll]
  | cons c cs ih =>
    simp only [Node.invAll, Bool.and_eq_true, ih]
    constructor
    · intro h d hd
      rcases List.mem_cons.mp hd with rfl | hd2
      · exact h.1
      · exact h.2 d hd2
    · intro h
      exact ⟨h c (by simp), fun d hd => h d (by simp [hd])⟩

theorem balancedAll_iff :
    ∀ (cs : List Node) (h : Nat), balancedAll h cs = true ↔
      ∀ c ∈ cs, Node.balanced c = true ∧ Node.height c = h := by
  intro cs
  induction cs with
  | nil => simp [balancedAll]
  | cons c cs ih =>
    intro h
    simp only [balancedAll, Bool.and_eq_true, decide_eq_true_eq, ih]
    constructor
    · intro hh d hd
      rcases List.mem_cons.mp hd with rfl | hd2
      · exact ⟨hh.1.1, hh.1.2⟩
      · exact hh.2 d hd2
    · intro hh
      exact ⟨⟨(hh c (by simp)).1, (hh c (by simp)).2⟩, fun d hd => hh d (by simp [hd])⟩

theorem capacityAll_iff (B : Nat) :
    ∀ (cs : List Node), Node.capacityAll B cs = true ↔
      ∀ c ∈ cs, Node.capacityOk B false c = true := by
  intro cs
  induction cs with
  | nil => simp [Node.capacityAll]
  | cons c cs ih =>
    simp only [Node.capacityAll, Bool.and_eq_true, ih]
    constructor
    · intro h d hd
      rcases List.mem_cons.mp hd with rfl | hd2
      · exact h.1
      · exact h.2 d hd2
    · intro h
      exact ⟨h c (by simp), fun d hd => h d (by simp [hd])⟩

theorem maxH_of_all :
    ∀ (cs : List Node) (h : Nat), cs ≠ [] → (∀ c ∈ cs, Node.height c = h) → maxH cs = h := by
  intro cs
  induction cs with
  | nil => intro h h1 h2; exact absurd rfl h1
  | cons c cs ih =>
    intro h h1 h2
    rcases cs with _ | ⟨c2, cs2⟩
    · simp [maxH, h2 c (by simp)]
    · have h3 := ih h (by simp) (fun d hd => h2 d (by simp [List.mem_cons.mp hd]))
      have h4 := h2 c (by simp)
      rw [show maxH (c :: c2 :: cs2) = max (Node.height c) (maxH (c2 :: cs2)) from rfl, h3, h4,
        Nat.max_self]

theorem balanced_of_all :
    ∀ (f : Bool) (ks : List Int) (cs : List Node) (h : Nat),
      (∀ c ∈ cs, Node.balanced c = true ∧ Node.height c = h) →
      Node.balanced (.mk f ks cs) = true := by
  intro f ks cs h hall
  rcases cs with _ | ⟨c, cs⟩
  · simp [Node.balanced]
  · simp only [Node.balanced, Bool.and_eq_true]
    refine ⟨(hall c (by simp)).1, ?_⟩
    rw [(hall c (by simp)).2, balancedAll_iff]
    exact fun d hd => hall d (by simp [hd])

theorem balanced_elim :
    ∀ (f : Bool) (ks : List Int) (c : Node) (cs : List Node),
      Node.balanced (.mk f ks (c :: cs)) = true →
      ∀ d ∈ c :: cs, Node.balanced d = true ∧ Node.height d = Node.height c := by
  intro f ks c cs h
  simp only [Node.balanced, Bool.and_eq_true] at h
  intro d hd
  rcases List.mem_cons.mp hd with rfl | hd2
  · exact ⟨h.1, rfl⟩
  · exact (balancedAll_iff cs (Node.height c)).mp h.2 d hd2

theorem height_mk_nil (f : Bool) (ks : List Int) : Node.height (.mk f ks []) = 1 := by
  simp [Node.height, maxH]

theorem height_mk_of_all (f : Bool) (ks : List Int) (cs : List Node) (h : Nat)
    (h1 : cs ≠ []) (h2 : ∀ c ∈ cs, Node.height c = h) :
    Node.height (.mk f ks cs) = h + 1 := by
  simp [Node.height, maxH_of_all cs h h1 h2]

theorem seq_bounds_aux :
    ∀ (ks : List Int) (cs : List Node) (lo hi : Option Int),
      (∀ c ∈ cs, ∀ lo2 hi2, Node.bst lo2 hi2 c = true →
        ∀ x ∈ Node.toList c, memOk lo2 hi2 x = true) →
      bstSeq lo hi ks cs = true → ∀ x ∈ seqList cs ks, memOk lo hi x = true := by
  intro ks
  induction ks with
  | nil =>
    intro cs lo hi hch h x hx
    rcases cs with _ | ⟨c, cs⟩
    · simp [bstSeq] at h
    · rcases cs with _ | ⟨c2, cs2⟩
      · simp only [bstSeq] at h
        simp only [seqList, List.append_nil] at hx
        exact hch c (by simp) lo hi h x hx
      · simp [bstSeq] at h
  | cons k ks ih =>
    intro cs lo hi hch h x hx
    rcases cs with _ | ⟨c, cs⟩
    · simp [bstSeq] at h
    · simp only [bstSeq, Bool.and_eq_true] at h
      simp only [seqList, List.mem_append, List.mem_cons] at hx
      rcases hx with hx1 | hx2 | hx3
      · exact memOk_hi_trans (hch c (by simp) lo (some k) h.1.2 x hx1) h.1.1
      · exact hx2 ▸ h.1.1
      · exact memOk_lo_trans
          (ih cs (some k) hi (fun d hd => hch d (by simp [hd])) h.2 x hx3) h.1.1

theorem bst_bounds :
    ∀ (n : Node) (lo hi : Option Int), Node.bst lo hi n = true →
      ∀ x ∈ Node.toList n, memOk lo hi x = true := by
  intro n
  induction n using Node.strongInd with
  | step n IH =>
    cases n with
    | mk f ks cs =>
      intro lo hi h x hx
      by_cases hf : f = true
      · subst hf
        simp only [Node.bst, if_true, Bool.and_eq_true] at h
        have hcs : cs = [] := by simpa using h.2
        subst hcs
        simp only [Node.toList, seqList] at hx
        exact sortedIn_bounds ks lo hi h.1 x hx
      · have hf2 : f = false := by simpa using hf
        subst hf2
        simp only [Node.bst, Bool.false_eq_true, if_false] at h
        simp only [Node.toList] at hx
        exact seq_bounds_aux ks cs lo hi
          (fun c hc lo2 hi2 hb y hy => IH c (Node.sizeOf_child_lt hc) lo2 hi2 hb y hy) h x hx

theorem seq_sorted_aux :
    ∀ (ks : List Int) (cs : List Node) (lo hi : Option Int),
      (∀ c ∈ cs, ∀ lo2 hi2, Node.bst lo2 hi2 c = true →
        sortedIn lo2 hi2 (Node.toList c) = true) →
      bstSeq lo hi ks cs = true → sortedIn lo hi (seqList cs ks) = true := by
  intro ks
  induction ks with
  | nil =>
    intro cs lo hi hch h
    rcases cs with _ | ⟨c, cs⟩
    · simp [bstSeq] at h
    · rcases cs with _ | ⟨c2, cs2⟩
      · simp only [bstSeq] at h
        simp only [seqList, List.append_nil]
        exact hch c (by simp) lo hi h
      · simp [bstSeq] at h
  | cons k ks ih =>
    intro cs lo hi hch h
    rcases cs with _ | ⟨c, cs⟩
    · simp [bstSeq] at h
    · simp only [bstSeq, Bool.and_eq_true] at h
      simp only [seqList]
      exact sortedIn_append (Node.toList c) lo hi k (seqList cs ks)
        (hch c (by simp) lo (some k) h.1.2) h.1.1
        (ih cs (some k) hi (fun d hd => hch d (by simp [hd])) h.2)

theorem bst_sortedIn :
    ∀ (n : Node) (lo hi : Option Int), Node.bst lo hi n = true →
      sortedIn lo hi (Node.toList n) = true := by
  intro n
  induction n using Node.strongInd with
  | step n IH =>
    cases n with
    | mk f ks cs =>
      intro lo hi h
      by_cases hf : f = true
      · subst hf
        simp only [Node.bst, if_true, Bool.and_eq_true] at h
        have hcs : cs = [] := by simpa using h.2
        subst hcs
        simpa [Node.toList, seqList] using h.1
      · have hf2 : f = false := by simpa using hf
        subst hf2
        simp only [Node.bst, Bool.false_eq_true, if_false] at h
        simp only [Node.toList]
        exact seq_sorted_aux ks cs lo hi
          (fun c hc lo2 hi2 hb => IH c (Node.sizeOf_child_lt hc) lo2 hi2 hb) h

theorem balanced_leafDepths :
    ∀ (n : Node), Node.balanced n = true → ∀ d ∈ Node.leafDepths n, d + 1 = Node.height n := by
  intro n
  induction n using Node.strongInd with
  | step n IH =>
    cases n with
    | mk f ks cs =>
      intro hbal d hd
      rcases cs with _ | ⟨c, cs⟩
      · simp only [Node.leafDepths] at hd
        simp only [List.mem_singleton] at hd
        simp [hd, height_mk_nil]
      · have hall := balanced_elim f ks c cs hbal
        have hh : Node.height (.mk f ks (c :: cs)) = Node.height c + 1 :=
          height_mk_of_all f ks (c :: cs) (Node.height c) (by simp)
            (fun e he => (hall e he).2)
        rw [hh]
        simp only [Node.leafDepths] at hd
        have : ∀ (ds : List Node), (∀ e ∈ ds, Node.balanced e = true ∧
            Node.height e = Node.height c) →
            (∀ e ∈ ds, ∀ d2 ∈ Node.leafDepths e, d2 + 1 = Node.height e) →
            ∀ d2 ∈ depthsA ds, d2 = Node.height c := by
          intro ds
          induction ds with
          | nil => intro h1 h2 d2 hd2; simp [depthsA] at hd2
          | cons e es ihe =>
            intro h1 h2 d2 hd2
            simp only [depthsA, List.mem_append, List.mem_map] at hd2
            rcases hd2 with ⟨d3, hd3, rfl⟩ | hd4
            · have := h2 e (by simp) d3 hd3
              rw [(h1 e (by simp)).2] at this
              omega
            · exact ihe (fun e2 he2 => h1 e2 (by simp [he2]))
                (fun e2 he2 => h2 e2 (by simp [he2])) d2 hd4
        have hdc := this (c :: cs) hall
          (fun e he => IH e (Node.sizeOf_child_lt he) (hall e he).1) d hd
        omega

theorem invAll_sub (B : Nat) {cs ds : List Node} (hsub : ds ⊆ cs)
    (h : Node.invAll B cs = true) : Node.invAll B ds = true :=
  (invAll_iff B ds).mpr (fun c hc => (invAll_iff B cs).mp h c (hsub hc))

theorem bstSeq_split :
    ∀ (j : Nat) (ks : List Int) (cs : List Node) (lo hi : Option Int),
      bstSeq lo hi ks cs = true → j < ks.length →
      ∃ m, ks[j]? = some m ∧
        bstSeq lo (some m) (ks.take j) (cs.take (j + 1)) = true ∧
        bstSeq (some m) hi (ks.drop (j + 1)) (cs.drop (j + 1)) = true ∧
        memOk lo hi m = true ∧
        seqList (cs.take (j + 1)) (ks.take j) ++
          m :: seqList (cs.drop (j + 1)) (ks.drop (j + 1)) = seqList cs ks := by
  intro j
  induction j with
  | zero =>
    intro ks cs lo hi h hj
    rcases ks with _ | ⟨k, kt⟩
    · simp at hj
    · rcases cs with _ | ⟨c, ct⟩
      · simp [bstSeq] at h
      · simp only [bstSeq, Bool.and_eq_true] at h
        refine ⟨k, by simp, ?_, ?_, h.1.1, ?_⟩
        · simpa [bstSeq] using h.1.2
        · simpa using h.2
        · simp [seqList]
  | succ j ihj =>
    intro ks cs lo hi h hj
    rcases ks with _ | ⟨k, kt⟩
    · simp at hj
    · rcases cs with _ | ⟨c, ct⟩
      · simp [bstSeq] at h
      · simp only [bstSeq, Bool.and_eq_true] at h
        obtain ⟨m, hm1, hm2, hm3, hm4, hm5⟩ := ihj kt ct (some k) hi h.2 (by simpa using hj)
        have hkm : k < m := memOk_some_lo hm4
        refine ⟨m, by simpa using hm1, ?_, ?_, memOk_lo_trans hm4 h.1.1, ?_⟩
        · simp only [List.take_succ_cons, bstSeq, Bool.and_eq_true]
          exact ⟨⟨memOk_of_lt_hi h.1.1 hkm, h.1.2⟩, hm2⟩
        · simpa using hm3
        · simp only [List.take_succ_cons, List.drop_succ_cons, seqList, List.append_assoc,
            List.cons_append]
          rw [hm5]

theorem not_mem_of_all_lt {l : List Int} {key : Int} (h : ∀ x ∈ l, x < key) : key ∉ l :=
  fun hm => absurd (h key hm) (lt_irrefl key)

theorem not_mem_of_all_gt {l : List Int} {key : Int} (h : ∀ x ∈ l, key < x) : key ∉ l :=
  fun hm => absurd (h key hm) (lt_irrefl key)

/-- Postcondition of `Node.insert` on a well-formed node: the run does not
panic and returns `AlreadyExists` with the node untouched exactly when the
key is already stored; otherwise the key is inserted, heights are preserved,
the size/search-tree/balance invariants survive, and on `Split` the two
pieces bracket the hoisted key. -/
def InsertPost (B : Nat) (lb : Nat) (lo hi : Option Int) (key : Int) (n : Node) : Prop :=
  ∃ r n2, Node.insert B n key = some (r, n2) ∧
    ((r = InsertResult.alreadyExists ∧ n2 = n ∧ key ∈ Node.toList n) ∨
     (r = InsertResult.inserted ∧ key ∉ Node.toList n ∧
       Node.inv B lb n2 = true ∧ Node.bst lo hi n2 = true ∧ Node.balanced n2 = true ∧
       Node.height n2 = Node.height n ∧
       Node.toList n2 = insertSorted key (Node.toList n)) ∨
     (∃ hk sib, r = InsertResult.split hk sib ∧ key ∉ Node.toList n ∧ memOk lo hi hk = true ∧
       Node.inv B (B - 1) n2 = true ∧ Node.bst lo (some hk) n2 = true ∧
       Node.balanced n2 = true ∧
       Node.inv B (B - 1) sib = true ∧ Node.bst (some hk) hi sib = true ∧
       Node.balanced sib = true ∧
       Node.height n2 = Node.height n ∧ Node.height sib = Node.height n ∧
       Node.toList n2 ++ hk :: Node.toList sib = insertSorted key (Node.toList n)))

theorem seq_insert_aux (B : Nat) (hB : 2 ≤ B) (key : Int) :
    ∀ (ks : List Int) (cs : List Node) (lo hi : Option Int) (idx : Nat) (hgt : Nat),
      (∀ c ∈ cs, ∀ lo2 hi2, Node.inv B (B - 1) c = true → Node.bst lo2 hi2 c = true →
        Node.balanced c = true → memOk lo2 hi2 key = true → InsertPost B (B - 1) lo2 hi2 key c) →
      bstSeq lo hi ks cs = true →
      Node.invAll B cs = true →
      (∀ c ∈ cs, Node.balanced c = true ∧ Node.height c = hgt) →
      bsearch key ks = .error idx →
      memOk lo hi key = true →
      ∃ child, cs[idx]? = some child ∧
      ∃ r child2, Node.insert B child key = some (r, child2) ∧
        ((r = InsertResult.alreadyExists ∧ child2 = child ∧ key ∈ seqList cs ks) ∨
         (r = InsertResult.inserted ∧ key ∉ seqList cs ks ∧
           bstSeq lo hi ks (setAt idx child2 cs) = true ∧
           Node.invAll B (setAt idx child2 cs) = true ∧
           (∀ c ∈ setAt idx child2 cs, Node.balanced c = true ∧ Node.height c = hgt) ∧
           seqList (setAt idx child2 cs) ks = insertSorted key (seqList cs ks)) ∨
         (∃ hk sib, r = InsertResult.split hk sib ∧ key ∉ seqList cs ks ∧
           bstSeq lo hi (insertAt idx hk ks)
             (insertAt (idx + 1) sib (setAt idx child2 cs)) = true ∧
           Node.invAll B (insertAt (idx + 1) sib (setAt idx child2 cs)) = true ∧
           (∀ c ∈ insertAt (idx + 1) sib (setAt idx child2 cs),
             Node.balanced c = true ∧ Node.height c = hgt) ∧
           seqList (insertAt (idx + 1) sib (setAt idx child2 cs)) (insertAt idx hk ks)
             = insertSorted key (seqList cs ks))) := by
  intro ks
  induction ks with
  | nil =>
    intro cs lo hi idx hgt SPEC hseq hinv hball herr hmem
    have hidx : idx = 0 := by
      simp only [bsearch] at herr
      exact (Except.error.inj herr).symm
    subst hidx
    rcases cs with _ | ⟨c, ct⟩
    · simp [bstSeq] at hseq
    · rcases ct with _ | ⟨c2, ct2⟩
      · simp only [bstSeq] at hseq
        obtain ⟨r, cc2, hrun, hcase⟩ :=
          SPEC c (by simp) lo hi ((invAll_iff B [c]).mp hinv c (by simp)) hseq
            (hball c (by simp)).1 hmem
        refine ⟨c, by simp, r, cc2, hrun, ?_⟩
        rcases hcase with ⟨hr, hc2, hm⟩ | ⟨hr, hnm, hinv2, hbst2, hbal2, hh2, htl⟩ |
          ⟨hk, sib, hr, hnm, hmk, hinv2, hbst2, hbal2, hinvs, hbsts, hbals, hh2, hhs, htl⟩
        · exact Or.inl ⟨hr, hc2, by simpa [seqList] using hm⟩
        · refine Or.inr (Or.inl ⟨hr, by simpa [seqList] using hnm, ?_, ?_, ?_, ?_⟩)
          · simpa [setAt, bstSeq] using hbst2
          · simp [setAt, Node.invAll, hinv2]
          · intro e he
            simp only [setAt] at he
            simp only [List.mem_singleton] at he
            subst he
            exact ⟨hbal2, hh2 ▸ (hball c (by simp)).2⟩
          · simp only [setAt, seqList, List.append_nil]
            exact htl
        · refine Or.inr (Or.inr ⟨hk, sib, hr, by simpa [seqList] using hnm, ?_, ?_, ?_, ?_⟩)
          · simp only [insertAt, setAt, bstSeq, Bool.and_eq_true]
            exact ⟨⟨hmk, hbst2⟩, hbsts⟩
          · simp [insertAt, setAt, Node.invAll, hinv2, hinvs]
          · intro e he
            simp only [insertAt, setAt, List.mem_cons, List.mem_singleton,
              List.not_mem_nil, or_false] at he
            rcases he with rfl | rfl
            · exact ⟨hbal2, hh2 ▸ (hball c (by simp)).2⟩
            · exact ⟨hbals, hhs ▸ (hball c (by simp)).2⟩
          · simp only [insertAt, setAt, seqList, List.append_nil]
            exact htl
      · simp [bstSeq] at hseq
  | cons k kt ih =>
    intro cs lo hi idx hgt SPEC hseq hinv hball herr hmem
    rcases cs with _ | ⟨c, ct⟩
    · simp [bstSeq] at hseq
    · simp only [bstSeq, Bool.and_eq_true] at hseq
      obtain ⟨⟨hmk, hbstc⟩, hrest⟩ := hseq
      simp only [Node.invAll, Bool.and_eq_true] at hinv
      simp only [bsearch] at herr
      have hctoListlt : ∀ x ∈ Node.toList c, x < k :=
        fun x hx => memOk_some_hi (bst_bounds c lo (some k) hbstc x hx)
      have hrestgt : ∀ x ∈ seqList ct kt, k < x :=
        fun x hx => memOk_some_lo
          (seq_bounds_aux kt ct (some k) hi
            (fun d hd lo2 hi2 hb y hy => bst_bounds d lo2 hi2 hb y hy) hrest x hx)
      by_cases hlt : key < k
      · have hidx : idx = 0 := by
          rw [if_pos hlt] at herr
          exact (Except.error.inj herr).symm
        subst hidx
        have hmemc : memOk lo (some k) key = true := memOk_of_lt_hi hmem hlt
        obtain ⟨r, cc2, hrun, hcase⟩ :=
          SPEC c (by simp) lo (some k) (hinv.1) hbstc (hball c (by simp)).1 hmemc
        refine ⟨c, by simp, r, cc2, hrun, ?_⟩
        have hknotkey : key ≠ k := by omega
        have hnotrest : key ∉ seqList ct kt :=
          not_mem_of_all_gt (fun x hx => lt_trans hlt (hrestgt x hx))
        rcases hcase with ⟨hr, hc2, hm⟩ | ⟨hr, hnm, hinv2, hbst2, hbal2, hh2, htl⟩ |
          ⟨hk2, sib, hr, hnm, hmk2, hinv2, hbst2, hbal2, hinvs, hbsts, hbals, hh2, hhs, htl⟩
        · refine Or.inl ⟨hr, hc2, ?_⟩
          simp only [seqList, List.mem_append]
          exact Or.inl hm
        · refine Or.inr (Or.inl ⟨hr, ?_, ?_, ?_, ?_, ?_⟩)
          · simp only [seqList, List.mem_append, List.mem_cons, not_or]
            exact ⟨hnm, hknotkey, hnotrest⟩
          · simp only [setAt, bstSeq, Bool.and_eq_true]
            exact ⟨⟨hmk, hbst2⟩, hrest⟩
          · simp only [setAt, Node.invAll, Bool.and_eq_true]
            exact ⟨hinv2, hinv.2⟩
          · intro e he
            simp only [setAt, List.mem_cons] at he
            rcases he with rfl | he2
            · exact ⟨hbal2, hh2 ▸ (hball c (by simp)).2⟩
            · exact hball e (by simp [he2])
          · simp only [setAt, seqList]
            rw [htl, insertSorted_append_lt key k hlt]
        · refine Or.inr (Or.inr ⟨hk2, sib, hr, ?_, ?_, ?_, ?_, ?_⟩)
          · simp only [seqList, List.mem_append, List.mem_cons, not_or]
            exact ⟨hnm, hknotkey, hnotrest⟩
          · simp only [insertAt, setAt, bstSeq, Bool.and_eq_true]
            have hk2k : hk2 < k := memOk_some_hi hmk2
            exact ⟨⟨memOk_hi_trans hmk2 hmk, hbst2⟩,
              ⟨memOk_of_gt_lo hmk hk2k, hbsts⟩, hrest⟩
          · simp only [insertAt, setAt, Node.invAll, Bool.and_eq_true]
            exact ⟨hinv2, hinvs, hinv.2⟩
          · intro e he
            simp only [insertAt, setAt, List.mem_cons] at he
            rcases he with rfl | rfl | he2
            · exact ⟨hbal2, hh2 ▸ (hball c (by simp)).2⟩
            · exact ⟨hbals, hhs ▸ (hball c (by simp)).2⟩
            · exact hball e (by simp [he2])
          · simp only [insertAt, setAt, seqList]
            rw [show Node.toList cc2 ++ hk2 :: (Node.toList sib ++ k :: seqList ct kt)
                = (Node.toList cc2 ++ hk2 :: Node.toList sib) ++ k :: seqList ct kt by
                simp [List.append_assoc]]
            rw [htl, insertSorted_append_lt key k hlt]
      · by_cases heq : key = k
        · rw [if_neg hlt, if_pos heq] at herr
          exact absurd herr (by simp)
        · rw [if_neg hlt, if_neg heq] at herr
          rcases hb : bsearch key kt with j | j <;> rw [hb] at herr <;> simp at herr
          · have hidx : idx = j + 1 := by omega
            subst hidx
            have hklt : k < key := by omega
            have hmemrest : memOk (some k) hi key = true := memOk_of_gt_lo hmem hklt
            obtain ⟨child, hchild, r, child2, hrun, hcase⟩ :=
              ih ct (some k) hi j hgt
                (fun d hd lo2 hi2 => SPEC d (by simp [hd]) lo2 hi2)
                hrest hinv.2 (fun d hd => hball d (by simp [hd])) hb hmemrest
            refine ⟨child, by simpa using hchild, r, child2, hrun, ?_⟩
            have hnotc : key ∉ Node.toList c :=
              not_mem_of_all_lt (fun x hx => lt_trans (hctoListlt x hx) hklt)
            have hkeysmall : ∀ x ∈ Node.toList c ++ [k], x < key := by
              intro x hx
              rcases List.mem_append.mp hx with hx1 | hx2
              · exact lt_trans (hctoListlt x hx1) hklt
              · simp only [List.mem_singleton] at hx2
                subst hx2
                exact hklt
            rcases hcase with ⟨hr, hc2, hm⟩ | ⟨hr, hnm, hbseq2, hinv2, hball2, htl⟩ |
              ⟨hk2, sib, hr, hnm, hbseq2, hinv2, hball2, htl⟩
            · refine Or.inl ⟨hr, hc2, ?_⟩
              simp only [seqList, List.mem_append, List.mem_cons]
              exact Or.inr (Or.inr hm)
            · refine Or.inr (Or.inl ⟨hr, ?_, ?_, ?_, ?_, ?_⟩)
              · simp only [seqList, List.mem_append, List.mem_cons, not_or]
                exact ⟨hnotc, fun hc => heq hc, hnm⟩
              · simp only [setAt, bstSeq, Bool.and_eq_true]
                exact ⟨⟨hmk, hbstc⟩, hbseq2⟩
              · simp only [setAt, Node.invAll, Bool.and_eq_true]
                exact ⟨hinv.1, hinv2⟩
              · intro e he
                simp only [setAt, List.mem_cons] at he
                rcases he with rfl | he2
                · exact hball e (by simp)
                · exact hball2 e he2
              · simp only [setAt, seqList]
                rw [htl]
                rw [show Node.toList c ++ k :: seqList ct kt
                    = (Node.toList c ++ [k]) ++ seqList ct kt by simp]
                rw [insertSorted_append_ge key (Node.toList c ++ [k]) (seqList ct kt) hkeysmall]
                simp
            · refine Or.inr (Or.inr ⟨hk2, sib, hr, ?_, ?_, ?_, ?_, ?_⟩)
              · simp only [seqList, List.mem_append, List.mem_cons, not_or]
                exact ⟨hnotc, fun hc => heq hc, hnm⟩
              · simp only [insertAt, setAt, bstSeq, Bool.and_eq_true]
                exact ⟨⟨hmk, hbstc⟩, hbseq2⟩
              · simp only [insertAt, setAt, Node.invAll, Bool.and_eq_true]
                exact ⟨hinv.1, hinv2⟩
              · intro e he
                simp only [insertAt, setAt, List.mem_cons] at he
                rcases he with rfl | he2
                · exact hball e (by simp)
                · exact hball2 e he2
              · simp only [insertAt, setAt, seqList]
                rw [htl]
                rw [show Node.toList c ++ k :: seqList ct kt
                    = (Node.toList c ++ [k]) ++ seqList ct kt by simp]
                rw [insertSorted_append_ge key (Node.toList c ++ [k]) (seqList ct kt) hkeysmall]
                simp

theorem toList_mk (f : Bool) (ks : List Int) (cs : List Node) :
    Node.toList (.mk f ks cs) = seqList cs ks := by
  simp [Node.toList]

theorem toList_leaf (f : Bool) (ks : List Int) : Node.toList (.mk f ks []) = ks := by
  simp [Node.toList, seqList]

theorem balanced_leaf (f : Bool) (ks : List Int) : Node.balanced (.mk f ks []) = true := by
  simp [Node.balanced]

theorem bst_leaf_iff (lo hi : Option Int) (ks : List Int) (cs : List Node) :
    Node.bst lo hi (.mk true ks cs) = true ↔ sortedIn lo hi ks = true ∧ cs = [] := by
  simp [Node.bst, Bool.and_eq_true, List.isEmpty_iff]

theorem bst_inter_eq (lo hi : Option Int) (ks : List Int) (cs : List Node) :
    Node.bst lo hi (.mk false ks cs) = bstSeq lo hi ks cs := by
  simp [Node.bst]

theorem mem_seqList_of_mem_keys {x : Int} :
    ∀ (cs : List Node) (ks : List Int), x ∈ ks → x ∈ seqList cs ks := by
  intro cs
  induction cs with
  | nil => intro ks h; simpa [seqList] using h
  | cons c ct ih =>
    intro ks h
    rcases ks with _ | ⟨k, kt⟩
    · simp at h
    · simp only [seqList, List.mem_append, List.mem_cons]
      rcases List.mem_cons.mp h with rfl | h2
      · exact Or.inr (Or.inl rfl)
      · exact Or.inr (Or.inr (ih kt h2))

theorem inv_mk_iff (B lb : Nat) (f : Bool) (ks : List Int) (cs : List Node) :
    Node.inv B lb (.mk f ks cs) = true ↔
      lb ≤ ks.length ∧ (if f = true then ks.length ≤ 2 * B - 1 else ks.length ≤ 2 * B - 2) ∧
      Node.invAll B cs = true := by
  by_cases hf : f = true <;>
    simp [Node.inv, hf, Bool.and_eq_true, decide_eq_true_eq, and_assoc]

theorem Node.insert_main (B : Nat) (hB : 2 ≤ B) :
    ∀ (n : Node) (lb : Nat) (lo hi : Option Int) (key : Int),
      Node.inv B lb n = true → Node.bst lo hi n = true → Node.balanced n = true →
      memOk lo hi key = true →
      InsertPost B lb lo hi key n := by
  intro n
  induction n using Node.strongInd with
  | step n IH =>
    cases n with
    | mk f ks cs =>
      intro lb lo hi key hinv hbst hbal hmem
      obtain ⟨hlbks, hmax, hinvAll⟩ := (inv_mk_iff B lb f ks cs).mp hinv
      by_cases hf : f = true
      · -- leaf node
        subst hf
        rw [if_pos rfl] at hmax
        simp only [Node.bst, if_true, Bool.and_eq_true] at hbst
        have hcs : cs = [] := by simpa using hbst.2
        subst hcs
        have hsort := hbst.1
        rcases hsearch : bsearch key ks with i | i
        · -- key absent at this leaf: insert, possibly split
          have hnotmem : key ∉ ks := bsearch_err_not_mem ks lo hi key i hsort hsearch
          have hks2 : insertAt i key ks = insertSorted key ks := insertAt_bsearch ks key i hsearch
          have hlen2 : (insertSorted key ks).length = ks.length + 1 :=
            insertSorted_length_of_not_mem ks key hnotmem
          have hsort2 : sortedIn lo hi (insertSorted key ks) = true :=
            insertSorted_sortedIn ks lo hi key hsort hmem
          by_cases hover : Node.MAX_KEYS B < (insertAt i key ks).length
          · -- leaf overflow: split
            have hlen2b : (insertAt i key ks).length = 2 * B := by
              rw [hks2] at hover ⊢
              simp only [Node.MAX_KEYS] at hover
              omega
            obtain ⟨m, hm_el, hm_last, hm_dropLast, hm_decomp⟩ :=
              getElem?_take_decomp (insertAt i key ks) (B - 1) (by omega)
            have hB1 : B - 1 + 1 = B := by omega
            rw [hB1] at hm_last hm_dropLast hm_decomp
            have hsplit : Node.split B (.mk true (insertAt i key ks) []) =
                some (.mk true ((insertAt i key ks).take B).dropLast [], m,
                  Node.leaf B ((insertAt i key ks).drop B)) := by
              simp only [Node.split, if_true, hm_last]
            have hrun : Node.insert B (.mk true ks []) key =
                some (.split m (Node.leaf B ((insertAt i key ks).drop B)),
                  .mk true ((insertAt i key ks).take B).dropLast []) := by
              rw [Node.insert_eq, hsearch]
              simp only [if_true, if_pos hover, hsplit]
            have hdroplen : ((insertAt i key ks).drop B).length = B := by
              rw [List.length_drop, hlen2b]
              omega
            have hsib : Node.leaf B ((insertAt i key ks).drop B) =
                .mk true ((insertAt i key ks).drop B) [] := by
              simp only [Node.leaf, Node.MAX_KEYS]
              rw [List.take_of_length_le (by omega)]
            have htakelen : ((insertAt i key ks).take (B - 1)).length = B - 1 := by
              simp [List.length_take, hlen2b]
              omega
            have hdecsort : sortedIn lo hi (List.take (B - 1) (insertAt i key ks) ++
                m :: List.drop B (insertAt i key ks)) = true := by
              rw [← hm_decomp, hks2]
              exact hsort2
            obtain ⟨hs1, hs2, hs3⟩ := sortedIn_decomp ((insertAt i key ks).take (B - 1)) lo hi m
              ((insertAt i key ks).drop B) hdecsort
            refine ⟨.split m (Node.leaf B ((insertAt i key ks).drop B)),
              .mk true ((insertAt i key ks).take B).dropLast [], hrun,
              Or.inr (Or.inr ⟨m, Node.leaf B ((insertAt i key ks).drop B), rfl, ?_, hs2,
                ?_, ?_, ?_, ?_, ?_, ?_, ?_, ?_, ?_⟩)⟩
            · rw [toList_leaf]
              exact hnotmem
            · rw [hm_dropLast, inv_mk_iff]
              refine ⟨by omega, ?_, by simp [Node.invAll]⟩
              rw [if_pos rfl, htakelen]
              omega
            · rw [hm_dropLast]
              exact (bst_leaf_iff lo (some m) _ _).mpr ⟨hs1, rfl⟩
            · rw [hm_dropLast]
              exact balanced_leaf _ _
            · rw [hsib, inv_mk_iff]
              refine ⟨by omega, ?_, by simp [Node.invAll]⟩
              rw [if_pos rfl, hdroplen]
              omega
            · rw [hsib]
              exact (bst_leaf_iff (some m) hi _ _).mpr ⟨hs3, rfl⟩
            · rw [hsib]
              exact balanced_leaf _ _
            · rw [hm_dropLast, height_mk_nil, height_mk_nil]
            · rw [hsib, height_mk_nil, height_mk_nil]
            · rw [hm_dropLast, hsib, toList_leaf, toList_leaf, toList_leaf, ← hks2]
              exact hm_decomp.symm
          · -- no overflow: plain insert
            have hrun : Node.insert B (.mk true ks []) key =
                some (.inserted, .mk true (insertAt i key ks) []) := by
              rw [Node.insert_eq, hsearch]
              simp only [if_true, if_neg hover]
            refine ⟨.inserted, .mk true (insertAt i key ks) [], hrun,
              Or.inr (Or.inl ⟨rfl, ?_, ?_, ?_, ?_, ?_, ?_⟩)⟩
            · rw [toList_leaf]
              exact hnotmem
            · rw [inv_mk_iff]
              refine ⟨?_, ?_, by simp [Node.invAll]⟩
              · rw [hks2, hlen2]
                omega
              · rw [if_pos rfl]
                simp only [Node.MAX_KEYS, not_lt] at hover
                omega
            · rw [hks2]
              exact (bst_leaf_iff lo hi _ _).mpr ⟨hsort2, rfl⟩
            · exact balanced_leaf _ _
            · rw [height_mk_nil, height_mk_nil]
            · rw [toList_leaf, toList_leaf, hks2]
        · -- key found at this leaf
          have hrun : Node.insert B (.mk true ks []) key =
              some (.alreadyExists, .mk true ks []) := by
            rw [Node.insert_eq, hsearch]
          exact ⟨.alreadyExists, .mk true ks [], hrun,
            Or.inl ⟨rfl, rfl, by rw [toList_leaf]; exact bsearch_ok_mem ks key i hsearch⟩⟩
      · -- intermediate node
        have hf2 : f = false := by simpa using hf
        subst hf2
        rw [if_neg (by simp)] at hmax
        simp only [Node.bst, Bool.false_eq_true, if_false] at hbst
        have hlen : cs.length = ks.length + 1 := bstSeq_length ks cs lo hi hbst
        rcases hcs : cs with _ | ⟨c, ct⟩
        · rw [hcs] at hlen; simp at hlen
        · rw [← hcs]
          have hball : ∀ e ∈ cs, Node.balanced e = true ∧ Node.height e = Node.height c := by
            rw [hcs]
            exact balanced_elim false ks c ct (hcs ▸ hbal)
          have hcsne : cs ≠ [] := by rw [hcs]; simp
          have hheight : Node.height (.mk false ks cs) = Node.height c + 1 :=
            height_mk_of_all false ks cs (Node.height c) hcsne (fun e he => (hball e he).2)
          rcases hsearch : bsearch key ks with i | i
          · -- descend
            obtain ⟨child, hchild, r, child2, hrunchild, hcase⟩ :=
              seq_insert_aux B hB key ks cs lo hi i (Node.height c)
                (fun d hd lo2 hi2 hi1 hb1 hb2 hm1 =>
                  IH d (Node.sizeOf_child_lt hd) (B - 1) lo2 hi2 key hi1 hb1 hb2 hm1)
                hbst hinvAll hball hsearch hmem
            have hile : i ≤ ks.length := bsearch_err_le ks key i hsearch
            rcases hcase with ⟨hr, hc2eq, hm⟩ | ⟨hr, hnm, hbseq2, hinv2, hball2, htl⟩ |
              ⟨hk2, sib, hr, hnm, hbseq2, hinv2, hball2, htl⟩
            · -- child: already exists
              subst hr
              have hset : setAt i child2 cs = cs := by
                rw [hc2eq]
                exact setAt_self cs i child hchild
              have hrun : Node.insert B (.mk false ks cs) key =
                  some (.alreadyExists, .mk false ks (setAt i child2 cs)) := by
                rw [Node.insert_eq, hsearch]
                simp only [Bool.false_eq_true, if_false, hchild, hrunchild]
              rw [hset] at hrun
              exact ⟨.alreadyExists, .mk false ks cs, hrun,
                Or.inl ⟨rfl, rfl, by rw [toList_mk]; exact hm⟩⟩
            · -- child: inserted, no structural change here
              subst hr
              have hrun : Node.insert B (.mk false ks cs) key =
                  some (.inserted, .mk false ks (setAt i child2 cs)) := by
                rw [Node.insert_eq, hsearch]
                simp only [Bool.false_eq_true, if_false, hchild, hrunchild]
              have hlen2 : (setAt i child2 cs).length = cs.length := setAt_length cs i child2
              have hne2 : setAt i child2 cs ≠ [] := by
                intro hx
                rw [hx] at hlen2
                rw [hcs] at hlen2
                simp at hlen2
              refine ⟨.inserted, .mk false ks (setAt i child2 cs), hrun,
                Or.inr (Or.inl ⟨rfl, ?_, ?_, ?_, ?_, ?_, ?_⟩)⟩
              · rw [toList_mk]
                exact hnm
              · rw [inv_mk_iff]
                exact ⟨hlbks, by rw [if_neg (by simp)]; exact hmax, hinv2⟩
              · simp only [Node.bst, Bool.false_eq_true, if_false]
                exact hbseq2
              · exact balanced_of_all false ks _ (Node.height c) hball2
              · rw [hheight]
                exact height_mk_of_all false ks _ (Node.height c) hne2
                  (fun e he => (hball2 e he).2)
              · rw [toList_mk, toList_mk]
                exact htl
            · -- child: split, absorb hoisted key and sibling
              subst hr
              have hlensets : (setAt i child2 cs).length = ks.length + 1 := by
                rw [setAt_length, hlen]
              have hlencs2 : (insertAt (i + 1) sib (setAt i child2 cs)).length =
                  ks.length + 2 := by
                rw [insertAt_length _ _ _ (by omega), hlensets]
              have hlenks2 : (insertAt i hk2 ks).length = ks.length + 1 :=
                insertAt_length _ _ _ hile
              by_cases hover : 2 * B - 1 < (insertAt (i + 1) sib (setAt i child2 cs)).length
              · -- this node also overflows: split itself
                have hkslen : ks.length = 2 * B - 2 := by omega
                have hkslen2 : (insertAt i hk2 ks).length = 2 * B - 1 := by omega
                have hcslen2 : (insertAt (i + 1) sib (setAt i child2 cs)).length = 2 * B := by
                  omega
                obtain ⟨m, hm_el, hm2, hm3, hm4, hm5⟩ :=
                  bstSeq_split (B - 1) (insertAt i hk2 ks)
                    (insertAt (i + 1) sib (setAt i child2 cs)) lo hi hbseq2 (by omega)
                have hB1 : B - 1 + 1 = B := by omega
                rw [hB1] at hm2 hm3 hm5
                obtain ⟨m2, hm2_el, hm2_last, hm2_dropLast, hm2_decomp⟩ :=
                  getElem?_take_decomp (insertAt i hk2 ks) (B - 1) (by omega)
                rw [hB1] at hm2_last hm2_dropLast hm2_decomp
                have hmm : m2 = m := by
                  rw [hm_el] at hm2_el
                  exact (Option.some.inj hm2_el).symm
                rw [hmm] at hm2_last hm2_decomp
                have hsplit : Node.split B (.mk false (insertAt i hk2 ks)
                    (insertAt (i + 1) sib (setAt i child2 cs))) =
                    some (.mk false ((insertAt i hk2 ks).take B).dropLast
                        ((insertAt (i + 1) sib (setAt i child2 cs)).take B), m,
                      Node.intermediate B ((insertAt i hk2 ks).drop B)
                        ((insertAt (i + 1) sib (setAt i child2 cs)).drop B)) := by
                  simp only [Node.split, Bool.false_eq_true, if_false, hm2_last]
                have hrun : Node.insert B (.mk false ks cs) key =
                    some (.split m (Node.intermediate B ((insertAt i hk2 ks).drop B)
                        ((insertAt (i + 1) sib (setAt i child2 cs)).drop B)),
                      .mk false ((insertAt i hk2 ks).take B).dropLast
                        ((insertAt (i + 1) sib (setAt i child2 cs)).take B)) := by
                  rw [Node.insert_eq, hsearch]
                  simp only [Bool.false_eq_true, if_false, hchild, hrunchild, if_pos hover,
                    hsplit]
                have hsib2 : Node.intermediate B ((insertAt i hk2 ks).drop B)
                    ((insertAt (i + 1) sib (setAt i child2 cs)).drop B) =
                    .mk false ((insertAt i hk2 ks).drop B)
                      ((insertAt (i + 1) sib (setAt i child2 cs)).drop B) := by
                  simp only [Node.intermediate, Node.MAX_KEYS, Node.MAX_CHILDREN]
                  rw [List.take_of_length_le (by rw [List.length_drop, hkslen2]; omega),
                    List.take_of_length_le (by rw [List.length_drop, hcslen2]; omega)]
                have htakekslen : ((insertAt i hk2 ks).take (B - 1)).length = B - 1 := by
                  simp [List.length_take, hkslen2]
                  omega
                have hdropkslen : ((insertAt i hk2 ks).drop B).length = B - 1 := by
                  simp [List.length_drop, hkslen2]
                  omega
                have htakecslen :
                    ((insertAt (i + 1) sib (setAt i child2 cs)).take B).length = B := by
                  simp [List.length_take, hcslen2]
                  omega
                have hdropcslen :
                    ((insertAt (i + 1) sib (setAt i child2 cs)).drop B).length = B := by
                  simp [List.length_drop, hcslen2]
                  omega
                have hballtake : ∀ e ∈ (insertAt (i + 1) sib (setAt i child2 cs)).take B,
                    Node.balanced e = true ∧ Node.height e = Node.height c :=
                  fun e he => hball2 e (List.take_subset _ _ he)
                have hballdrop : ∀ e ∈ (insertAt (i + 1) sib (setAt i child2 cs)).drop B,
                    Node.balanced e = true ∧ Node.height e = Node.height c :=
                  fun e he => hball2 e (List.drop_subset _ _ he)
                have htakene : (insertAt (i + 1) sib (setAt i child2 cs)).take B ≠ [] := by
                  intro hx
                  have := congrArg List.length hx
                  rw [htakecslen] at this
                  simp at this
                  omega
                have hdropne : (insertAt (i + 1) sib (setAt i child2 cs)).drop B ≠ [] := by
                  intro hx
                  have := congrArg List.length hx
                  rw [hdropcslen] at this
                  simp at this
                  omega
                refine ⟨_, _, hrun, Or.inr (Or.inr ⟨m,
                  Node.intermediate B ((insertAt i hk2 ks).drop B)
                    ((insertAt (i + 1) sib (setAt i child2 cs)).drop B), rfl, ?_, hm4,
                  ?_, ?_, ?_, ?_, ?_, ?_, ?_, ?_, ?_⟩)⟩
                · rw [toList_mk]
                  exact hnm
                · rw [hm2_dropLast, inv_mk_iff]
                  refine ⟨by omega, ?_, invAll_sub B (List.take_subset _ _) hinv2⟩
                  rw [if_neg (by simp), htakekslen]
                  omega
                · rw [hm2_dropLast]
                  simp only [Node.bst, Bool.false_eq_true, if_false]
                  exact hm2
                · rw [hm2_dropLast]
                  exact balanced_of_all false _ _ (Node.height c) hballtake
                · rw [hsib2, inv_mk_iff]
                  refine ⟨by omega, ?_, invAll_sub B (List.drop_subset _ _) hinv2⟩
                  rw [if_neg (by simp), hdropkslen]
                  omega
                · rw [hsib2]
                  simp only [Node.bst, Bool.false_eq_true, if_false]
                  exact hm3
                · rw [hsib2]
                  exact balanced_of_all false _ _ (Node.height c) hballdrop
                · rw [hm2_dropLast, hheight]
                  exact height_mk_of_all false _ _ (Node.height c) htakene
                    (fun e he => (hballtake e he).2)
                · rw [hsib2, hheight]
                  exact height_mk_of_all false _ _ (Node.height c) hdropne
                    (fun e he => (hballdrop e he).2)
                · rw [hm2_dropLast, hsib2, toList_mk, toList_mk, toList_mk, hm5, htl]
              · -- absorbed without further split
                have hrun : Node.insert B (.mk false ks cs) key =
                    some (.inserted, .mk false (insertAt i hk2 ks)
                      (insertAt (i + 1) sib (setAt i child2 cs))) := by
                  rw [Node.insert_eq, hsearch]
                  simp only [Bool.false_eq_true, if_false, hchild, hrunchild, if_neg hover]
                have hne2 : insertAt (i + 1) sib (setAt i child2 cs) ≠ [] := by
                  intro hx
                  have := congrArg List.length hx
                  rw [hlencs2] at this
                  simp at this
                refine ⟨.inserted, _, hrun, Or.inr (Or.inl ⟨rfl, ?_, ?_, ?_, ?_, ?_, ?_⟩)⟩
                · rw [toList_mk]
                  exact hnm
                · rw [inv_mk_iff]
                  refine ⟨by omega, ?_, hinv2⟩
                  rw [if_neg (by simp)]
                  omega
                · simp only [Node.bst, Bool.false_eq_true, if_false]
                  exact hbseq2
                · exact balanced_of_all false _ _ (Node.height c) hball2
                · rw [hheight]
                  exact height_mk_of_all false _ _ (Node.height c) hne2
                    (fun e he => (hball2 e he).2)
                · rw [toList_mk, toList_mk]
                  exact htl
          · -- key found at this intermediate node
            have hrun : Node.insert B (.mk false ks cs) key =
                some (.alreadyExists, .mk false ks cs) := by
              rw [Node.insert_eq, hsearch]
            exact ⟨.alreadyExists, .mk false ks cs, hrun,
              Or.inl ⟨rfl, rfl, by
                rw [toList_mk]
                exact mem_seqList_of_mem_keys cs ks (bsearch_ok_mem ks key i hsearch)⟩⟩

theorem seq_search_aux (key : Int) :
    ∀ (ks : List Int) (cs : List Node) (lo hi : Option Int) (idx : Nat),
      bstSeq lo hi ks cs = true → bsearch key ks = .error idx → memOk lo hi key = true →
      ∃ c lo2 hi2, cs[idx]? = some c ∧ Node.bst lo2 hi2 c = true ∧ memOk lo2 hi2 key = true ∧
        (key ∈ seqList cs ks ↔ key ∈ Node.toList c) := by
  intro ks
  induction ks with
  | nil =>
    intro cs lo hi idx hseq herr hmem
    have hidx : idx = 0 := by
      simp only [bsearch] at herr
      exact (Except.error.inj herr).symm
    subst hidx
    rcases cs with _ | ⟨c, ct⟩
    · simp [bstSeq] at hseq
    · rcases ct with _ | ⟨c2, ct2⟩
      · simp only [bstSeq] at hseq
        exact ⟨c, lo, hi, by simp, hseq, hmem, by simp [seqList]⟩
      · simp [bstSeq] at hseq
  | cons k kt ih =>
    intro cs lo hi idx hseq herr hmem
    rcases cs with _ | ⟨c, ct⟩
    · simp [bstSeq] at hseq
    · simp only [bstSeq, Bool.and_eq_true] at hseq
      obtain ⟨⟨hmk, hbstc⟩, hrest⟩ := hseq
      have hrestgt : ∀ x ∈ seqList ct kt, k < x :=
        fun x hx => memOk_some_lo
          (seq_bounds_aux kt ct (some k) hi
            (fun d hd lo2 hi2 hb y hy => bst_bounds d lo2 hi2 hb y hy) hrest x hx)
      have hctlt : ∀ x ∈ Node.toList c, x < k :=
        fun x hx => memOk_some_hi (bst_bounds c lo (some k) hbstc x hx)
      simp only [bsearch] at herr
      by_cases hlt : key < k
      · have hidx : idx = 0 := by
          rw [if_pos hlt] at herr
          exact (Except.error.inj herr).symm
        subst hidx
        refine ⟨c, lo, some k, by simp, hbstc, memOk_of_lt_hi hmem hlt, ?_⟩
        simp only [seqList, List.mem_append, List.mem_cons]
        constructor
        · intro h
          rcases h with h1 | h2 | h3
          · exact h1
          · omega
          · exact absurd (hrestgt key h3) (by omega)
        · intro h
          exact Or.inl h
      · by_cases heq : key = k
        · rw [if_neg hlt, if_pos heq] at herr
          exact absurd herr (by simp)
        · rw [if_neg hlt, if_neg heq] at herr
          rcases hb : bsearch key kt with j | j <;> rw [hb] at herr <;> simp at herr
          have hidx : idx = j + 1 := by omega
          subst hidx
          have hklt : k < key := by omega
          obtain ⟨c2, lo2, hi2, hc2, hb2, hm2, hiff⟩ :=
            ih ct (some k) hi j hrest hb (memOk_of_gt_lo hmem hklt)
          refine ⟨c2, lo2, hi2, by simpa using hc2, hb2, hm2, ?_⟩
          simp only [seqList, List.mem_append, List.mem_cons]
          constructor
          · intro h
            rcases h with h1 | h2 | h3
            · exact absurd (hctlt key h1) (by omega)
            · omega
            · exact hiff.mp h3
          · intro h
            exact Or.inr (Or.inr (hiff.mpr h))

theorem Root.search_correct :
    ∀ (n : Node) (lo hi : Option Int) (key : Int), Node.bst lo hi n = true →
      memOk lo hi key = true →
      Root.search n key =
        some (if key ∈ Node.toList n then Except.ok key else Except.error Error.keyNotFound) := by
  intro n
  induction n using Node.strongInd with
  | step n IH =>
    cases n with
    | mk f ks cs =>
      intro lo hi key hbst hmem
      by_cases hf : f = true
      · subst hf
        obtain ⟨hsort, hcs⟩ := (bst_leaf_iff lo hi ks cs).mp hbst
        subst hcs
        rcases hsearch : bsearch key ks with i | i
        · have hnot : key ∉ ks := bsearch_err_not_mem ks lo hi key i hsort hsearch
          have hfind : Node.find (.mk true ks []) key = some .notFound := by
            simp [Node.find, hsearch]
          rw [Root.search_eq, hfind, toList_leaf, if_neg hnot]
        · have hel : ks[i]? = some key := bsearch_ok_getElem ks key i hsearch
          have hfind : Node.find (.mk true ks []) key = some (.key key) := by
            simp [Node.find, hsearch, hel]
          rw [Root.search_eq, hfind, toList_leaf,
            if_pos (mem_of_getElemQ ks i key hel)]
      · have hf2 : f = false := by simpa using hf
        subst hf2
        rw [bst_inter_eq] at hbst
        rcases hsearch : bsearch key ks with i | i
        · obtain ⟨c, lo2, hi2, hc, hbc, hmc, hiff⟩ :=
            seq_search_aux key ks cs lo hi i hbst hsearch hmem
          have hfind : Node.find (.mk false ks cs) key = some (.child c) := by
            simp [Node.find, hsearch, hc]
          rw [Root.search_eq, hfind]
          show Root.search c key = _
          rw [IH c (Node.sizeOf_child_lt (mem_of_getElemQ cs i c hc)) lo2 hi2 key hbc hmc]
          rw [toList_mk]
          by_cases hmemb : key ∈ Node.toList c
          · rw [if_pos hmemb, if_pos (hiff.mpr hmemb)]
          · rw [if_neg hmemb, if_neg (fun hx => hmemb (hiff.mp hx))]
        · have hel : ks[i]? = some key := bsearch_ok_getElem ks key i hsearch
          have hfind : Node.find (.mk false ks cs) key = some (.key key) := by
            simp [Node.find, hsearch, hel]
          rw [Root.search_eq, hfind, toList_mk,
            if_pos (mem_seqList_of_mem_keys cs ks (mem_of_getElemQ ks i key hel))]

/-- Tree-level functional specification of `DummyBTreeSet.insert` on a
well-formed state: no panic, well-formedness is preserved, an already-present
key is rejected with the tree unchanged, and a fresh key is added at its
sorted position; the root grows by one level exactly on a root split. -/
theorem DummyBTreeSet.insert_spec (B : Nat) (hB : 2 ≤ B) (t : DummyBTreeSet) (key : Int)
    (hwf : DummyBTreeSet.WF B t = true) :
    ∃ r t2, DummyBTreeSet.insert B t key = some (r, t2) ∧ DummyBTreeSet.WF B t2 = true ∧
      ((key ∈ DummyBTreeSet.toList t ∧ r = .error .keyAlreadyExists ∧ t2 = t) ∨
       (key ∉ DummyBTreeSet.toList t ∧ r = .ok () ∧
         DummyBTreeSet.toList t2 = insertSorted key (DummyBTreeSet.toList t) ∧
         DummyBTreeSet.heightD t ≤ DummyBTreeSet.heightD t2 ∧
         DummyBTreeSet.heightD t2 ≤ DummyBTreeSet.heightD t + 1 ∧
         (t.root = none → t2 = ⟨some (Node.leaf B [key])⟩ ∧ DummyBTreeSet.heightD t2 = 1) ∧
         (∀ n, t.root = some n →
           ((∃ hs sib n2, Node.insert B n key = some (.split hs sib, n2) ∧
               t2.root = some (.mk false [hs] [n2, sib]) ∧
               Node.height n2 = Node.height n ∧ Node.height sib = Node.height n ∧
               DummyBTreeSet.heightD t2 = DummyBTreeSet.heightD t + 1) ∨
            (∃ n2, Node.insert B n key = some (.inserted, n2) ∧ t2.root = some n2 ∧
               DummyBTreeSet.heightD t2 = DummyBTreeSet.heightD t))))) := by
  rcases t with ⟨_ | n⟩
  · refine ⟨.ok (), ⟨some (Node.leaf B [key])⟩, rfl, ?_, Or.inr ⟨by simp [DummyBTreeSet.toList],
      rfl, ?_, ?_, ?_, fun _ => ⟨rfl, ?_⟩, fun n hn => by simp at hn⟩⟩
    · have hleaf : Node.leaf B [key] = .mk true [key] [] := by
        simp only [Node.leaf, Node.MAX_KEYS]
        rw [List.take_of_length_le (by simp; omega)]
      simp only [DummyBTreeSet.WF, hleaf, Bool.and_eq_true]
      refine ⟨⟨?_, ?_⟩, ?_⟩
      · rw [inv_mk_iff]
        exact ⟨by simp, by rw [if_pos rfl]; simp; omega, by simp [Node.invAll]⟩
      · exact (bst_leaf_iff none none [key] []).mpr ⟨by simp [sortedIn, memOk], rfl⟩
      · exact balanced_leaf _ _
    · have hleaf : Node.leaf B [key] = .mk true [key] [] := by
        simp only [Node.leaf, Node.MAX_KEYS]
        rw [List.take_of_length_le (by simp; omega)]
      simp [DummyBTreeSet.toList, hleaf, toList_leaf, insertSorted]
    · simp [DummyBTreeSet.heightD]
    · have hleaf : Node.leaf B [key] = .mk true [key] [] := by
        simp only [Node.leaf, Node.MAX_KEYS]
        rw [List.take_of_length_le (by simp; omega)]
      simp [DummyBTreeSet.heightD, hleaf, height_mk_nil]
    · have hleaf : Node.leaf B [key] = .mk true [key] [] := by
        simp only [Node.leaf, Node.MAX_KEYS]
        rw [List.take_of_length_le (by simp; omega)]
      simp [DummyBTreeSet.heightD, hleaf, height_mk_nil]
  · simp only [DummyBTreeSet.WF, Bool.and_eq_true] at hwf
    obtain ⟨⟨hinv, hbst⟩, hbal⟩ := hwf
    have hmem : memOk none none key = true := rfl
    obtain ⟨r, n2, hrun, hcase⟩ :=
      Node.insert_main B hB n 1 none none key hinv hbst hbal hmem
    rcases hcase with ⟨hr, hn2, hm⟩ | ⟨hr, hnm, hinv2, hbst2, hbal2, hh2, htl⟩ |
      ⟨hk, sib, hr, hnm, hmk, hinv2, hbst2, hbal2, hinvs, hbsts, hbals, hh2, hhs, htl⟩
    · subst hr
      refine ⟨.error .keyAlreadyExists, ⟨some n⟩, ?_, ?_, Or.inl ⟨?_, rfl, rfl⟩⟩
      · simp only [DummyBTreeSet.insert, Root.insert, hrun, hn2]
      · simp only [DummyBTreeSet.WF, Bool.and_eq_true]
        exact ⟨⟨hinv, hbst⟩, hbal⟩
      · simpa [DummyBTreeSet.toList] using hm
    · subst hr
      refine ⟨.ok (), ⟨some n2⟩, ?_, ?_, Or.inr ⟨?_, rfl, ?_, ?_, ?_, by simp,
        fun n0 hn0 => ?_⟩⟩
      · simp only [DummyBTreeSet.insert, Root.insert, hrun]
      · simp only [DummyBTreeSet.WF, Bool.and_eq_true]
        exact ⟨⟨hinv2, hbst2⟩, hbal2⟩
      · simpa [DummyBTreeSet.toList] using hnm
      · simpa [DummyBTreeSet.toList] using htl
      · simp [DummyBTreeSet.heightD, hh2]
      · simp [DummyBTreeSet.heightD, hh2]
      · have hn0b : n0 = n := by
          have := hn0
          simp only [Option.some.injEq] at this
          exact this.symm
        subst hn0b
        exact Or.inr ⟨n2, hrun, rfl, by simp [DummyBTreeSet.heightD, hh2]⟩
    · subst hr
      have hinter : Node.intermediate B [hk] [n2, sib] = .mk false [hk] [n2, sib] := by
        simp only [Node.intermediate, Node.MAX_KEYS, Node.MAX_CHILDREN]
        rw [List.take_of_length_le (by simp; omega), List.take_of_length_le (by simp; omega)]
      have hball2 : ∀ e ∈ [n2, sib], Node.balanced e = true ∧ Node.height e = Node.height n := by
        intro e he
        rcases List.mem_cons.mp he with rfl | he2
        · exact ⟨hbal2, hh2⟩
        · simp only [List.mem_singleton] at he2
          subst he2
          exact ⟨hbals, hhs⟩
      have hht : Node.height (.mk false [hk] [n2, sib]) = Node.height n + 1 :=
        height_mk_of_all false [hk] [n2, sib] (Node.height n) (by simp)
          (fun e he => (hball2 e he).2)
      refine ⟨.ok (), ⟨some (.mk false [hk] [n2, sib])⟩, ?_, ?_, Or.inr ⟨?_, rfl, ?_, ?_, ?_,
        by simp, fun n0 hn0 => ?_⟩⟩
      · simp only [DummyBTreeSet.insert, Root.insert, hrun, hinter]
      · simp only [DummyBTreeSet.WF, Bool.and_eq_true]
        refine ⟨⟨?_, ?_⟩, ?_⟩
        · rw [inv_mk_iff]
          refine ⟨by simp, by rw [if_neg (by simp)]; simp; omega, ?_⟩
          simp [Node.invAll, hinv2, hinvs]
        · rw [bst_inter_eq]
          simp only [bstSeq, Bool.and_eq_true]
          exact ⟨⟨rfl, hbst2⟩, hbsts⟩
        · exact balanced_of_all false [hk] [n2, sib] (Node.height n) hball2
      · simpa [DummyBTreeSet.toList] using hnm
      · simp only [DummyBTreeSet.toList, toList_mk, seqList]
        simpa using htl
      · simp [DummyBTreeSet.heightD, hht]
      · simp [DummyBTreeSet.heightD, hht]
      · have hn0b : n0 = n := by
          have := hn0
          simp only [Option.some.injEq] at this
          exact this.symm
        subst hn0b
        exact Or.inl ⟨hk, sib, n2, hrun, rfl, hh2, hhs,
          by simp [DummyBTreeSet.heightD, hht]⟩

/-- Well-formedness of every reachable tree state. -/
theorem reachable_wf (B : Nat) (hB : 2 ≤ B) :
    ∀ t : DummyBTreeSet, Reachable B t → DummyBTreeSet.WF B t = true := by
  intro t hr
  induction hr with
  | new => rfl
  | ins hr heq ihw =>
    rename_i t0 t1 r k
    obtain ⟨r2, t2, hrun, hwf2, _⟩ := DummyBTreeSet.insert_spec B hB t0 k ihw
    rw [heq] at hrun
    have h3 : t1 = t2 := by
      have h2 := Option.some.inj hrun
      have h4 := congrArg Prod.snd h2
      simpa using h4
    rw [h3]
    exact hwf2
  | rem hr heq ihw =>
    rename_i t0 t1 r k
    rcases t0 with ⟨_ | n⟩
    · simp only [DummyBTreeSet.remove] at heq
      have : t1 = ⟨none⟩ := (congrArg Prod.snd (Option.some.inj heq)).symm
      rw [this]
      rfl
    · simp [DummyBTreeSet.remove, Root.remove] at heq

/-- Tree-level functional specification of search on a well-formed state. -/
theorem DummyBTreeSet.search_spec (B : Nat) (t : DummyBTreeSet) (key : Int)
    (hwf : DummyBTreeSet.WF B t = true) :
    DummyBTreeSet.search t key =
      some (if key ∈ DummyBTreeSet.toList t then Except.ok key
        else Except.error Error.keyNotFound) := by
  rcases t with ⟨_ | n⟩
  · simp [DummyBTreeSet.search, DummyBTreeSet.toList]
  · simp only [DummyBTreeSet.WF, Bool.and_eq_true] at hwf
    simp only [DummyBTreeSet.search, DummyBTreeSet.toList]
    exact Root.search_correct n none none key hwf.1.2 rfl

theorem bstSeq_children_bst :
    ∀ (ks : List Int) (cs : List Node) (lo hi : Option Int), bstSeq lo hi ks cs = true →
      ∀ c ∈ cs, ∃ lo2 hi2, Node.bst lo2 hi2 c = true := by
  intro ks
  induction ks with
  | nil =>
    intro cs lo hi h c hc
    rcases cs with _ | ⟨c0, ct⟩
    · simp at hc
    · rcases ct with _ | ⟨c1, ct1⟩
      · simp only [bstSeq] at h
        simp only [List.mem_singleton] at hc
        subst hc
        exact ⟨lo, hi, h⟩
      · simp [bstSeq] at h
  | cons k kt ih =>
    intro cs lo hi h c hc
    rcases cs with _ | ⟨c0, ct⟩
    · simp at hc
    · simp only [bstSeq, Bool.and_eq_true] at h
      rcases List.mem_cons.mp hc with rfl | hc2
      · exact ⟨lo, some k, h.1.2⟩
      · exact ih ct (some k) hi h.2 c hc2

theorem capacity_of_wf (B : Nat) :
    ∀ (n : Node) (lb : Nat) (lo hi : Option Int) (isRoot : Bool),
      (isRoot = true ∨ lb = B - 1) →
      Node.inv B lb n = true → Node.bst lo hi n = true →
      Node.capacityOk B isRoot n = true := by
  intro n
  induction n using Node.strongInd with
  | step n IH =>
    cases n with
    | mk f ks cs =>
      intro lb lo hi isRoot hcase hinv hbst
      obtain ⟨hlbks, hmaxks, hinvAll⟩ := (inv_mk_iff B lb f ks cs).mp hinv
      have hlow : (if isRoot = true then 0 else B - 1) ≤ ks.length := by
        rcases hcase with hcase | hcase
        · rw [hcase]
          simp
        · by_cases hR : isRoot = true
          · rw [hR]; simp
          · have : isRoot = false := by simpa using hR
            rw [this]
            simp only [Bool.false_eq_true, if_false]
            omega
      by_cases hf : f = true
      · subst hf
        obtain ⟨hsort, hcs⟩ := (bst_leaf_iff lo hi ks cs).mp hbst
        subst hcs
        simp only [Node.capacityOk, Bool.and_eq_true, decide_eq_true_eq]
        rw [if_pos rfl] at hmaxks
        refine ⟨⟨⟨hlow, hmaxks⟩, ?_⟩, ?_⟩
        · simp
        · simp [Node.capacityAll]
      · have hf2 : f = false := by simpa using hf
        subst hf2
        rw [bst_inter_eq] at hbst
        rw [if_neg (by simp)] at hmaxks
        simp only [Node.capacityOk, Bool.and_eq_true, decide_eq_true_eq]
        refine ⟨⟨⟨hlow, by omega⟩, ?_⟩, ?_⟩
        · rw [if_neg (by simp)]
          simp only [decide_eq_true_eq]
          exact bstSeq_length ks cs lo hi hbst
        · rw [capacityAll_iff]
          intro c hc
          obtain ⟨lo2, hi2, hb2⟩ := bstSeq_children_bst ks cs lo hi hbst c hc
          exact IH c (Node.sizeOf_child_lt hc) (B - 1) lo2 hi2 false (Or.inr rfl)
            ((invAll_iff B cs).mp hinvAll c hc) hb2

/-! Claim theorems. -/

/-- C4 (amended, helper-free general form): when a leaf holding `2B - 1` keys
absorbs one more key, the split keeps the first `B - 1` keys, hoists the key
at index `B - 1` of the overflowed sequence, and moves the `B` keys at index
`B` and beyond into the new sibling. -/
theorem leaf_split_spec (B : Nat) (hB : 1 ≤ B) (ks : List Int) (cs : List Node) (key : Int)
    (idx : Nat) (hsearch : bsearch key ks = .error idx) (hlen : ks.length = 2 * B - 1) :
    ∃ m, (insertAt idx key ks)[B - 1]? = some m ∧
      Node.insert B (.mk true ks cs) key =
        some (.split m (.mk true ((insertAt idx key ks).drop B) []),
          .mk true ((insertAt idx key ks).take (B - 1)) cs) ∧
      ((insertAt idx key ks).take (B - 1)).length = B - 1 ∧
      ((insertAt idx key ks).drop B).length = B ∧
      (insertAt idx key ks).take (B - 1) ++ m :: (insertAt idx key ks).drop B
        = insertAt idx key ks := by
  have hile : idx ≤ ks.length := bsearch_err_le ks key idx hsearch
  have hlen2 : (insertAt idx key ks).length = 2 * B := by
    rw [insertAt_length ks idx key hile]
    omega
  obtain ⟨m, hm_el, hm_last, hm_dropLast, hm_decomp⟩ :=
    getElem?_take_decomp (insertAt idx key ks) (B - 1) (by omega)
  have hB1 : B - 1 + 1 = B := by omega
  rw [hB1] at hm_last hm_dropLast hm_decomp
  have hover : Node.MAX_KEYS B < (insertAt idx key ks).length := by
    simp only [Node.MAX_KEYS]
    omega
  have hsib : Node.leaf B ((insertAt idx key ks).drop B) =
      .mk true ((insertAt idx key ks).drop B) [] := by
    simp only [Node.leaf, Node.MAX_KEYS]
    rw [List.take_of_length_le (by rw [List.length_drop, hlen2]; omega)]
  refine ⟨m, hm_el, ?_, ?_, ?_, hm_decomp.symm⟩
  · rw [Node.insert_eq, hsearch]
    simp only [if_true, if_pos hover, Node.split, hm_last, hm_dropLast, hsib]
  · rw [List.length_take, hlen2]
    omega
  · rw [List.length_drop, hlen2]
    omega

/-- C4 (counterexample): inserting `3` into the full leaf `[0, 1, 2]` at
`B = 2` hoists the key `1`, which is the key at index `B - 1 = 1` of the
overflowed sequence `[0, 1, 2, 3]`, not the key `2` found at index `B = 2`;
and the new sibling receives `B = 2` keys, not `B - 1 = 1`. -/
theorem leaf_split_counterexample :
    Node.insert 2 (.mk true [0, 1, 2] []) 3 =
      some (.split 1 (.mk true [2, 3] []), .mk true [0] []) ∧
    ([0, 1, 2, 3] : List Int)[2]? = some 2 ∧ (1 : Int) ≠ 2 ∧
    ([2, 3] : List Int).length ≠ 2 - 1 := by
  refine ⟨?_, by decide, by decide, by decide⟩
  simp [Node.insert_eq, bsearch, insertAt, Node.split, Node.leaf, Node.MAX_KEYS]

/-- C3 (amended): an ancestor that receives a `Split` from the child at
position `idx` inserts the hoisted key at index `idx` of its key sequence and
the new sibling at index `idx + 1` of its child sequence; it then splits
itself if and only if its child count now exceeds `2B - 1`, i.e. as soon as
it holds at least `2B - 1` keys (so an ancestor left with exactly `2B - 1`
keys does split; only `2B - 2` keys or fewer report `Inserted`). -/
theorem intermediate_split_threshold (B : Nat) (hB : 1 ≤ B) (ks : List Int) (cs : List Node)
    (key : Int) (idx : Nat) (child child2 sib : Node) (hs : Int)
    (hcount : cs.length = ks.length + 1)
    (hsearch : bsearch key ks = .error idx)
    (hchild : cs[idx]? = some child)
    (hrunchild : Node.insert B child key = some (.split hs sib, child2))
    (hidx : idx ≤ ks.length) :
    (ks.length + 1 ≤ 2 * B - 2 →
      Node.insert B (.mk false ks cs) key =
        some (.inserted, .mk false (insertAt idx hs ks)
          (insertAt (idx + 1) sib (setAt idx child2 cs)))) ∧
    (2 * B - 2 < ks.length + 1 →
      ∃ h2 sib2 n2, Node.insert B (.mk false ks cs) key = some (.split h2 sib2, n2) ∧
        Node.split B (.mk false (insertAt idx hs ks)
          (insertAt (idx + 1) sib (setAt idx child2 cs))) = some (n2, h2, sib2)) := by
  have hsetlen : (setAt idx child2 cs).length = cs.length := setAt_length cs idx child2
  have hcs2len : (insertAt (idx + 1) sib (setAt idx child2 cs)).length = ks.length + 2 := by
    rw [insertAt_length _ _ _ (by omega), hsetlen, hcount]
  constructor
  · intro hle
    have hnot : ¬ 2 * B - 1 < (insertAt (idx + 1) sib (setAt idx child2 cs)).length := by
      rw [hcs2len]
      omega
    rw [Node.insert_eq, hsearch]
    simp only [Bool.false_eq_true, if_false, hchild, hrunchild, if_neg hnot]
  · intro hgt
    have hpos : 2 * B - 1 < (insertAt (idx + 1) sib (setAt idx child2 cs)).length := by
      rw [hcs2len]
      omega
    have hks2len : (insertAt idx hs ks).length = ks.length + 1 :=
      insertAt_length _ _ _ hidx
    obtain ⟨m, hm_el, hm_last, hm_dropLast, hm_decomp⟩ :=
      getElem?_take_decomp (insertAt idx hs ks) (B - 1) (by omega)
    have hB1 : B - 1 + 1 = B := by omega
    rw [hB1] at hm_last hm_dropLast hm_decomp
    have hsplit : Node.split B (.mk false (insertAt idx hs ks)
        (insertAt (idx + 1) sib (setAt idx child2 cs))) =
        some (.mk false ((insertAt idx hs ks).take B).dropLast
            ((insertAt (idx + 1) sib (setAt idx child2 cs)).take B), m,
          Node.intermediate B ((insertAt idx hs ks).drop B)
            ((insertAt (idx + 1) sib (setAt idx child2 cs)).drop B)) := by
      simp only [Node.split, Bool.false_eq_true, if_false, hm_last]
    refine ⟨m, Node.intermediate B ((insertAt idx hs ks).drop B)
      ((insertAt (idx + 1) sib (setAt idx child2 cs)).drop B),
      .mk false ((insertAt idx hs ks).take B).dropLast
        ((insertAt (idx + 1) sib (setAt idx child2 cs)).take B), ?_, hsplit⟩
    rw [Node.insert_eq, hsearch]
    simp only [Bool.false_eq_true, if_false, hchild, hrunchild, if_pos hpos, hsplit]

/-- C3 (counterexample): at `B = 2` the ancestor `[10, 20]` with three leaf
children receives a `Split` from its first child when `3` is inserted; after
absorbing the hoisted key it holds exactly `2B - 1 = 3` keys, and it then
splits and reports `Split` — the claim predicts it reports `Inserted`. -/
theorem intermediate_split_at_full_counterexample :
    Node.insert 2 (Node.mk false [10, 20] [Node.mk true [0, 1, 2] [], Node.mk true [12, 14] [],
        Node.mk true [30, 40] []]) 3 =
      some (.split 10 (.mk false [20] [Node.mk true [12, 14] [], Node.mk true [30, 40] []]),
        .mk false [1] [Node.mk true [0] [], Node.mk true [2, 3] []]) ∧
    (insertAt 0 (1 : Int) [10, 20]).length = 2 * 2 - 1 ∧
    (∀ n2, Node.insert 2 (Node.mk false [10, 20] [Node.mk true [0, 1, 2] [],
        Node.mk true [12, 14] [], Node.mk true [30, 40] []]) 3 ≠
      some (.inserted, n2)) := by
  have h1 : Node.insert 2 (.mk true [0, 1, 2] []) 3 =
      some (.split 1 (.mk true [2, 3] []), .mk true [0] []) := by
    simp [Node.insert_eq, bsearch, insertAt, Node.split, Node.leaf, Node.MAX_KEYS]
  have h2 : Node.insert 2 (Node.mk false [10, 20] [Node.mk true [0, 1, 2] [],
      Node.mk true [12, 14] [], Node.mk true [30, 40] []]) 3 =
      some (.split 10 (.mk false [20] [Node.mk true [12, 14] [], Node.mk true [30, 40] []]),
        .mk false [1] [Node.mk true [0] [], Node.mk true [2, 3] []]) := by
    simp [Node.insert_eq, bsearch, h1, insertAt, setAt, Node.split, Node.intermediate,
      Node.MAX_KEYS, Node.MAX_CHILDREN]
  refine ⟨h2, by decide, ?_⟩
  intro n2 hcontra
  rw [h2] at hcontra
  simp at hcontra

/-- C1: `Root::remove` is `todo!()` — it panics on every call, so `remove`
panics (modelled as `none`) on every non-empty tree instead of returning
`Removed(key)`/`KeyNotFound`; only the empty tree returns `KeyNotFound`.
Shown at the failing input of the repository's own test
(`insert 20` then `remove 20`). -/
theorem remove_unimplemented_panics :
    DummyBTreeSet.insert 6 ⟨none⟩ 20 = some (.ok (), ⟨some (.mk true [20] [])⟩) ∧
    DummyBTreeSet.remove 6 ⟨some (.mk true [20] [])⟩ 20 = none ∧
    (∀ (key : Int) (n : Node), Root.remove 6 n key = none) ∧
    DummyBTreeSet.remove 6 ⟨none⟩ 20 = some (.error .keyNotFound, ⟨none⟩) :=
  ⟨rfl, rfl, fun _ _ => rfl, rfl⟩

/-- C8: the differential equivalence with the reference oracle breaks on the
very first remove: after both sides insert `20`, `ReferenceBTreeSet.remove`
returns `Ok(20)` while `DummyBTreeSet.remove` hits the `todo!()` panic
(modelled as `none`) and produces no result at all. -/
theorem dummy_vs_reference_remove_divergence :
    DummyBTreeSet.insert 6 ⟨none⟩ 20 = some (.ok (), ⟨some (.mk true [20] [])⟩) ∧
    ReferenceBTreeSet.insert ⟨[]⟩ 20 = (.ok (), ⟨[20]⟩) ∧
    DummyBTreeSet.remove 6 ⟨some (.mk true [20] [])⟩ 20 = none ∧
    ReferenceBTreeSet.remove ⟨[20]⟩ 20 = (.ok 20, ⟨[]⟩) := by
  refine ⟨rfl, ?_, rfl, ?_⟩
  · simp [ReferenceBTreeSet.insert, insertSorted]
  · simp [ReferenceBTreeSet.remove, List.erase]

/-- C2: every tree reachable from `new()` through normally-completing public
operations satisfies the structural invariants: the in-order traversal is
strictly increasing, every childless node sits at the same depth
(`d + 1 = height`), and the capacity bounds hold (root keys in `[0, 2B-1]`,
non-root keys in `[B-1, 2B-1]`, child count = key count + 1 at intermediate
nodes, no children at leaves). -/
theorem reachable_structural_invariants (B : Nat) (t : DummyBTreeSet)
    (hB : 2 ≤ B) (hr : Reachable B t) :
    strictAsc (DummyBTreeSet.toList t) = true ∧
    (∀ n, t.root = some n →
      (∀ d ∈ Node.leafDepths n, d + 1 = Node.height n) ∧
      Node.capacityOk B true n = true) := by
  have hwf := reachable_wf B hB t hr
  rcases t with ⟨_ | n⟩
  · exact ⟨rfl, fun n hn => by simp at hn⟩
  · simp only [DummyBTreeSet.WF, Bool.and_eq_true] at hwf
    obtain ⟨⟨hinv, hbst⟩, hbal⟩ := hwf
    refine ⟨?_, fun n2 hn2 => ?_⟩
    · simp only [DummyBTreeSet.toList]
      exact sortedIn_strictAsc (Node.toList n) none none (bst_sortedIn n none none hbst)
    · have hn2b : n2 = n := by
        have := hn2
        simp only [Option.some.injEq] at this
        exact this.symm
      subst hn2b
      exact ⟨balanced_leafDepths n2 hbal,
        capacity_of_wf B n2 1 none none true (Or.inl rfl) hinv hbst⟩

/-- C2 witness: the singleton tree reached by one insert at `B = 2`. -/
theorem reachable_structural_invariants_witness :
    (2 ≤ 2 ∧ Reachable 2 ⟨some (.mk true [5] [])⟩) ∧
    (strictAsc (DummyBTreeSet.toList ⟨some (.mk true [5] [])⟩) = true ∧
     (∀ n, DummyBTreeSet.root ⟨some (.mk true [5] [])⟩ = some n →
       (∀ d ∈ Node.leafDepths n, d + 1 = Node.height n) ∧
       Node.capacityOk 2 true n = true)) := by
  have hstep : DummyBTreeSet.insert 2 ⟨none⟩ 5 =
      some (.ok (), ⟨some (.mk true [5] [])⟩) := rfl
  have hr : Reachable 2 ⟨some (.mk true [5] [])⟩ := Reachable.ins Reachable.new hstep
  exact ⟨⟨by omega, hr⟩, reachable_structural_invariants 2 _ (by omega) hr⟩

/-- C5: on a well-formed tree, inserting a key already present returns
`KeyAlreadyExists` and leaves the tree literally unchanged, and inserting an
absent key succeeds with `Ok(())`. -/
theorem insert_contract (B : Nat) (t : DummyBTreeSet) (key : Int)
    (hB : 2 ≤ B) (hwf : DummyBTreeSet.WF B t = true) :
    (key ∈ DummyBTreeSet.toList t →
      DummyBTreeSet.insert B t key = some (.error .keyAlreadyExists, t)) ∧
    (key ∉ DummyBTreeSet.toList t →
      ∃ t2, DummyBTreeSet.insert B t key = some (.ok (), t2)) := by
  obtain ⟨r, t2, hrun, hwf2, hcase⟩ := DummyBTreeSet.insert_spec B hB t key hwf
  constructor
  · intro hmem
    rcases hcase with ⟨_, hr, ht2⟩ | ⟨hnm, _, _⟩
    · rw [hrun, hr, ht2]
    · exact absurd hmem hnm
  · intro hnm
    rcases hcase with ⟨hmem, _, _⟩ | ⟨_, hr, _⟩
    · exact absurd hmem hnm
    · exact ⟨t2, by rw [hrun, hr]⟩

/-- C5 witness: the singleton tree at `B = 2` with the stored key `5`. -/
theorem insert_contract_witness :
    (2 ≤ 2 ∧ DummyBTreeSet.WF 2 ⟨some (.mk true [5] [])⟩ = true) ∧
    ((5 : Int) ∈ DummyBTreeSet.toList ⟨some (.mk true [5] [])⟩ →
      DummyBTreeSet.insert 2 ⟨some (.mk true [5] [])⟩ 5 =
        some (.error .keyAlreadyExists, ⟨some (.mk true [5] [])⟩)) ∧
    ((5 : Int) ∉ DummyBTreeSet.toList ⟨some (.mk true [5] [])⟩ →
      ∃ t2, DummyBTreeSet.insert 2 ⟨some (.mk true [5] [])⟩ 5 = some (.ok (), t2)) := by
  have h := insert_contract 2 ⟨some (.mk true [5] [])⟩ 5 (by omega) (by rfl)
  exact ⟨⟨by omega, by rfl⟩, h.1, h.2⟩

/-- C6: on a well-formed tree, `search` returns the stored key (equal to the
probe) exactly when the key is present, returns `KeyNotFound` when absent,
takes the tree by shared reference (it is a pure function of the tree in
this model), and `contains` is `search(key).is_ok()`. -/
theorem search_contract (B : Nat) (t : DummyBTreeSet) (key : Int)
    (hwf : DummyBTreeSet.WF B t = true) :
    (DummyBTreeSet.search t key = some (.ok key) ↔ key ∈ DummyBTreeSet.toList t) ∧
    (key ∉ DummyBTreeSet.toList t →
      DummyBTreeSet.search t key = some (.error .keyNotFound)) ∧
    DummyBTreeSet.contains t key = (DummyBTreeSet.search t key).map (fun r =>
      match r with
      | .ok _ => true
      | .error _ => false) := by
  have hs := DummyBTreeSet.search_spec B t key hwf
  refine ⟨⟨?_, ?_⟩, ?_, rfl⟩
  · intro hok
    by_contra hnm
    rw [hs, if_neg hnm] at hok
    simp at hok
  · intro hmem
    rw [hs, if_pos hmem]
  · intro hnm
    rw [hs, if_neg hnm]

/-- C6 witness: the singleton tree at `B = 2` probed with its stored key. -/
theorem search_contract_witness :
    DummyBTreeSet.WF 2 ⟨some (.mk true [5] [])⟩ = true ∧
    ((DummyBTreeSet.search ⟨some (.mk true [5] [])⟩ 5 = some (.ok 5) ↔
      (5 : Int) ∈ DummyBTreeSet.toList ⟨some (.mk true [5] [])⟩) ∧
    ((5 : Int) ∉ DummyBTreeSet.toList ⟨some (.mk true [5] [])⟩ →
      DummyBTreeSet.search ⟨some (.mk true [5] [])⟩ 5 = some (.error .keyNotFound)) ∧
    DummyBTreeSet.contains ⟨some (.mk true [5] [])⟩ 5 =
      (DummyBTreeSet.search ⟨some (.mk true [5] [])⟩ 5).map (fun r =>
        match r with
        | .ok _ => true
        | .error _ => false)) :=
  ⟨by rfl, search_contract 2 ⟨some (.mk true [5] [])⟩ 5 (by rfl)⟩

/-- C7: a successful insert never decreases the height; it increases it by
exactly one precisely when the root splits, in which case the new root holds
exactly the hoisted key with the old root and the new sibling as its two
children; inserting into the empty tree creates a singleton leaf root. -/
theorem insert_height_behavior (B : Nat) (t t2 : DummyBTreeSet) (key : Int)
    (hB : 2 ≤ B) (hwf : DummyBTreeSet.WF B t = true)
    (hrun : DummyBTreeSet.insert B t key = some (.ok (), t2)) :
    DummyBTreeSet.heightD t ≤ DummyBTreeSet.heightD t2 ∧
    DummyBTreeSet.heightD t2 ≤ DummyBTreeSet.heightD t + 1 ∧
    (t.root = none → t2 = ⟨some (Node.leaf B [key])⟩ ∧
      Node.leaf B [key] = .mk true [key] [] ∧ DummyBTreeSet.heightD t2 = 1) ∧
    (∀ n, t.root = some n →
      (DummyBTreeSet.heightD t2 = DummyBTreeSet.heightD t + 1 ↔
        ∃ hs sib n2, Node.insert B n key = some (.split hs sib, n2) ∧
          t2.root = some (.mk false [hs] [n2, sib]))) := by
  obtain ⟨r, t3, hrun2, hwf2, hcase⟩ := DummyBTreeSet.insert_spec B hB t key hwf
  rw [hrun] at hrun2
  have hpair := Option.some.inj hrun2
  have ht3 : t3 = t2 := by
    have := congrArg Prod.snd hpair
    simpa using this.symm
  subst ht3
  rcases hcase with ⟨_, hr, _⟩ | ⟨hnm, _, htl, hle, hge, hempty, hroot⟩
  · rw [hr] at hpair
    have := congrArg Prod.fst hpair
    simp at this
  · refine ⟨hle, hge, ?_, fun n hn => ?_⟩
    · intro hnone
      obtain ⟨ht2, hh⟩ := hempty hnone
      refine ⟨ht2, ?_, hh⟩
      simp only [Node.leaf, Node.MAX_KEYS]
      rw [List.take_of_length_le (by simp; omega)]
    · rcases hroot n hn with ⟨hs, sib, n2, hinsn, hroot2, _, _, hh⟩ | ⟨n2, hinsn, hroot2, hh⟩
      · constructor
        · intro _
          exact ⟨hs, sib, n2, hinsn, hroot2⟩
        · intro _
          exact hh
      · constructor
        · intro hcontra
          omega
        · intro ⟨hs2, sib2, n3, hinsn2, _⟩
          rw [hinsn] at hinsn2
          have := congrArg Prod.fst (Option.some.inj hinsn2)
          simp at this

/-- C7 witness: inserting `5` into the empty tree at `B = 2`. -/
theorem insert_height_behavior_witness :
    (2 ≤ 2 ∧ DummyBTreeSet.WF 2 ⟨none⟩ = true ∧
      DummyBTreeSet.insert 2 ⟨none⟩ 5 = some (.ok (), ⟨some (.mk true [5] [])⟩)) ∧
    (DummyBTreeSet.heightD ⟨none⟩ ≤ DummyBTreeSet.heightD ⟨some (.mk true [5] [])⟩ ∧
    DummyBTreeSet.heightD ⟨some (.mk true [5] [])⟩ ≤ DummyBTreeSet.heightD ⟨none⟩ + 1 ∧
    (DummyBTreeSet.root ⟨none⟩ = none →
      (⟨some (.mk true [5] [])⟩ : DummyBTreeSet) = ⟨some (Node.leaf 2 [5])⟩ ∧
      Node.leaf 2 [5] = .mk true [5] [] ∧
      DummyBTreeSet.heightD ⟨some (.mk true [5] [])⟩ = 1) ∧
    (∀ n, DummyBTreeSet.root ⟨none⟩ = some n →
      (DummyBTreeSet.heightD ⟨some (.mk true [5] [])⟩ = DummyBTreeSet.heightD ⟨none⟩ + 1 ↔
        ∃ hs sib n2, Node.insert 2 n 5 = some (.split hs sib, n2) ∧
          DummyBTreeSet.root ⟨some (.mk true [5] [])⟩ = some (.mk false [hs] [n2, sib])))) :=
  ⟨⟨by omega, by rfl, rfl⟩,
    insert_height_behavior 2 ⟨none⟩ ⟨some (.mk true [5] [])⟩ 5 (by omega) (by rfl) rfl⟩

/-- C9: on every reachable tree with `B ≥ 2`, `insert`, `search` and
`contains` complete without panicking: descent indices stay in bounds and
the `unwrap` inside `split` always succeeds, so no run returns the panic
value `none`. -/
theorem insert_search_no_panic (B : Nat) (t : DummyBTreeSet)
    (hB : 2 ≤ B) (hr : Reachable B t) :
    (∀ key : Int, ∃ out, DummyBTreeSet.insert B t key = some out) ∧
    (∀ key : Int, ∃ res, DummyBTreeSet.search t key = some res) ∧
    (∀ key : Int, ∃ b, DummyBTreeSet.contains t key = some b) := by
  have hwf := reachable_wf B hB t hr
  refine ⟨fun key => ?_, fun key => ?_, fun key => ?_⟩
  · obtain ⟨r, t2, hrun, _, _⟩ := DummyBTreeSet.insert_spec B hB t key hwf
    exact ⟨(r, t2), hrun⟩
  · exact ⟨_, DummyBTreeSet.search_spec B t key hwf⟩
  · obtain ⟨res, hres⟩ : ∃ res, DummyBTreeSet.search t key = some res :=
      ⟨_, DummyBTreeSet.search_spec B t key hwf⟩
    cases res with
    | ok v => exact ⟨true, by simp [DummyBTreeSet.contains, hres]⟩
    | error e => exact ⟨false, by simp [DummyBTreeSet.contains, hres]⟩

/-- C9 witness: the singleton tree reached by one insert at `B = 2`. -/
theorem insert_search_no_panic_witness :
    (2 ≤ 2 ∧ Reachable 2 ⟨some (.mk true [5] [])⟩) ∧
    ((∀ key : Int, ∃ out, DummyBTreeSet.insert 2 ⟨some (.mk true [5] [])⟩ key = some out) ∧
    (∀ key : Int, ∃ res, DummyBTreeSet.search ⟨some (.mk true [5] [])⟩ key = some res) ∧
    (∀ key : Int, ∃ b, DummyBTreeSet.contains ⟨some (.mk true [5] [])⟩ key = some b)) := by
  have hstep : DummyBTreeSet.insert 2 ⟨none⟩ 5 =
      some (.ok (), ⟨some (.mk true [5] [])⟩) := rfl
  have hr : Reachable 2 ⟨some (.mk true [5] [])⟩ := Reachable.ins Reachable.new hstep
  exact ⟨⟨by omega, hr⟩, insert_search_no_panic 2 _ (by omega) hr⟩

/-- C10: the `Node::intermediate` constructor caps its inputs at
`MAX_KEYS = 2B - 1` keys and `MAX_CHILDREN = B` children (the constants are
swapped relative to the usual B-tree bounds, `MIN_CHILDREN` being `2B`);
yet the root-promotion call (1 key, 2 children) fits for `B ≥ 2`, and on a
well-formed tree no insert ever discards content: the key multiset of the
resulting tree is exactly the old one plus the new key. -/
theorem intermediate_truncation_harmless (B : Nat) (t : DummyBTreeSet) (key : Int)
    (hB : 2 ≤ B) (hwf : DummyBTreeSet.WF B t = true) :
    (∀ (ks : List Int) (cs : List Node), Node.intermediate B ks cs =
      .mk false (ks.take (2 * B - 1)) (cs.take B)) ∧
    Node.MAX_CHILDREN B = B ∧ Node.MIN_CHILDREN B = 2 * B ∧
    (∀ (hs : Int) (a b : Node), Node.intermediate B [hs] [a, b] = .mk false [hs] [a, b]) ∧
    (∀ r t2, DummyBTreeSet.insert B t key = some (r, t2) → r = .ok () →
      DummyBTreeSet.toList t2 = insertSorted key (DummyBTreeSet.toList t)) := by
  refine ⟨fun ks cs => rfl, rfl, rfl, fun hs a b => ?_, fun r t2 hrun hok => ?_⟩
  · simp only [Node.intermediate, Node.MAX_KEYS, Node.MAX_CHILDREN]
    rw [List.take_of_length_le (by simp; omega), List.take_of_length_le (by simp; omega)]
  · obtain ⟨r2, t3, hrun2, _, hcase⟩ := DummyBTreeSet.insert_spec B hB t key hwf
    rw [hrun] at hrun2
    have hpair := Option.some.inj hrun2
    have ht3 : t3 = t2 := by
      have := congrArg Prod.snd hpair
      simpa using this.symm
    subst ht3
    have hr2 : r2 = r := by
      have := congrArg Prod.fst hpair
      simpa using this.symm
    subst hr2
    rcases hcase with ⟨_, hrr, _⟩ | ⟨_, _, htl, _⟩
    · rw [hok] at hrr
      simp at hrr
    · exact htl

/-- C10 witness: the singleton tree at `B = 2`, inserting a fresh key. -/
theorem intermediate_truncation_harmless_witness :
    (2 ≤ 2 ∧ DummyBTreeSet.WF 2 ⟨some (.mk true [5] [])⟩ = true) ∧
    ((∀ (ks : List Int) (cs : List Node), Node.intermediate 2 ks cs =
      .mk false (ks.take (2 * 2 - 1)) (cs.take 2)) ∧
    Node.MAX_CHILDREN 2 = 2 ∧ Node.MIN_CHILDREN 2 = 2 * 2 ∧
    (∀ (hs : Int) (a b : Node), Node.intermediate 2 [hs] [a, b] = .mk false [hs] [a, b]) ∧
    (∀ r t2, DummyBTreeSet.insert 2 ⟨some (.mk true [5] [])⟩ 7 = some (r, t2) → r = .ok () →
      DummyBTreeSet.toList t2 = insertSorted 7 (DummyBTreeSet.toList ⟨some (.mk true [5] [])⟩))) :=
  ⟨⟨by omega, by rfl⟩,
    intermediate_truncation_harmless 2 ⟨some (.mk true [5] [])⟩ 7 (by omega) (by rfl)⟩

/-- C3 witness: a concrete ancestor at `B = 2` with a single key absorbing a
child split without overflowing. -/
theorem intermediate_split_threshold_witness :
    (1 ≤ 2 ∧ ([Node.mk true [0, 1, 2] [], Node.mk true [20, 30] []] : List Node).length =
        ([10] : List Int).length + 1 ∧
      bsearch 3 [10] = .error 0 ∧
      ([Node.mk true [0, 1, 2] [], Node.mk true [20, 30] []] : List Node)[0]? =
        some (.mk true [0, 1, 2] []) ∧
      Node.insert 2 (.mk true [0, 1, 2] []) 3 =
        some (.split 1 (.mk true [2, 3] []), .mk true [0] []) ∧
      0 ≤ ([10] : List Int).length) ∧
    ((([10] : List Int).length + 1 ≤ 2 * 2 - 2 →
      Node.insert 2 (.mk false [10] [Node.mk true [0, 1, 2] [], Node.mk true [20, 30] []]) 3 =
        some (.inserted, .mk false (insertAt 0 1 [10])
          (insertAt 1 (.mk true [2, 3] [])
            (setAt 0 (.mk true [0] []) [Node.mk true [0, 1, 2] [], Node.mk true [20, 30] []])))) ∧
    (2 * 2 - 2 < ([10] : List Int).length + 1 →
      ∃ h2 sib2 n2, Node.insert 2 (.mk false [10]
          [Node.mk true [0, 1, 2] [], Node.mk true [20, 30] []]) 3 =
        some (.split h2 sib2, n2) ∧
        Node.split 2 (.mk false (insertAt 0 1 [10])
          (insertAt 1 (.mk true [2, 3] [])
            (setAt 0 (.mk true [0] []) [Node.mk true [0, 1, 2] [], Node.mk true [20, 30] []]))) =
          some (n2, h2, sib2))) := by
  have hrunchild : Node.insert 2 (.mk true [0, 1, 2] []) 3 =
      some (.split 1 (.mk true [2, 3] []), .mk true [0] []) := by
    simp [Node.insert_eq, bsearch, insertAt, Node.split, Node.leaf, Node.MAX_KEYS]
  exact ⟨⟨by omega, by decide, rfl, rfl, hrunchild, by decide⟩,
    intermediate_split_threshold 2 (by omega) [10]
      [Node.mk true [0, 1, 2] [], Node.mk true [20, 30] []] 3 0
      (.mk true [0, 1, 2] []) (.mk true [0] []) (.mk true [2, 3] []) 1
      (by decide) rfl rfl hrunchild (by decide)⟩

/-- C4 witness: the full leaf `[0, 1, 2]` at `B = 2` receiving `3`. -/
theorem leaf_split_spec_witness :
    (1 ≤ 2 ∧ bsearch 3 [0, 1, 2] = .error 3 ∧ ([0, 1, 2] : List Int).length = 2 * 2 - 1) ∧
    (∃ m, (insertAt 3 (3 : Int) [0, 1, 2])[2 - 1]? = some m ∧
      Node.insert 2 (.mk true [0, 1, 2] []) 3 =
        some (.split m (.mk true ((insertAt 3 (3 : Int) [0, 1, 2]).drop 2) []),
          .mk true ((insertAt 3 (3 : Int) [0, 1, 2]).take (2 - 1)) []) ∧
      ((insertAt 3 (3 : Int) [0, 1, 2]).take (2 - 1)).length = 2 - 1 ∧
      ((insertAt 3 (3 : Int) [0, 1, 2]).drop 2).length = 2 ∧
      (insertAt 3 (3 : Int) [0, 1, 2]).take (2 - 1) ++ m :: (insertAt 3 (3 : Int) [0, 1, 2]).drop 2
        = insertAt 3 (3 : Int) [0, 1, 2]) :=
  ⟨⟨by omega, rfl, by decide⟩,
    leaf_split_spec 2 (by omega) [0, 1, 2] [] 3 3 rfl (by decide)⟩

end BtreeModel
